import Mathlib

/-!
Verification development for the pandas calendar-offset engine
(`pandas/tseries/offsets.py`).

The engine's instants are naive datetimes.  They are modelled here by the
structure `DT` below: a proleptic Gregorian calendar date (year, month, day)
plus a time of day measured in nanoseconds (pandas Timestamps carry
nanosecond precision).  Python's floor division `//` and modulus `%` on
integers coincide with Lean's `/` and `%` on `Int` for positive divisors,
which is the only situation in which the source uses them.

Helper functions of the pandas repository that live outside the translated
file (`shift_month`, `monthrange`, `_is_normalized`, `dateutil.relativedelta`
weekday arithmetic) are modelled from the specification text; each such
definition carries a doc comment saying so.
-/

/-- Gregorian leap-year test, the calendar rule used by `tslib.monthrange`. -/
def isLeapB (y : Int) : Bool :=
  y % 4 == 0 && (y % 100 != 0 || y % 400 == 0)

/-- Modelled from the spec: number of days in a month of the proleptic
Gregorian calendar, the value `tslib.monthrange(y, m)[1]` (the `monthrange`
helper is not part of the translated source file). -/
def daysInMonth (y m : Int) : Int :=
  if m = 1 then 31
  else if m = 2 then (if isLeapB y then 29 else 28)
  else if m = 3 then 31
  else if m = 4 then 30
  else if m = 5 then 31
  else if m = 6 then 30
  else if m = 7 then 31
  else if m = 8 then 31
  else if m = 9 then 30
  else if m = 10 then 31
  else if m = 11 then 30
  else 31

/-- Days in year `y` before the first of month `m` (proleptic Gregorian). -/
def daysBeforeMonth (y m : Int) : Int :=
  let l : Int := if isLeapB y then 1 else 0
  if m ≤ 1 then 0
  else if m = 2 then 31
  else if m = 3 then 59 + l
  else if m = 4 then 90 + l
  else if m = 5 then 120 + l
  else if m = 6 then 151 + l
  else if m = 7 then 181 + l
  else if m = 8 then 212 + l
  else if m = 9 then 243 + l
  else if m = 10 then 273 + l
  else if m = 11 then 304 + l
  else 334 + l

/-- Days before January 1 of year `y` (rata die; `toOrd ⟨1,1,1⟩ = 1`). -/
def daysBeforeYear (y : Int) : Int :=
  365 * (y - 1) + (y - 1) / 4 - (y - 1) / 100 + (y - 1) / 400

/-- A naive instant: proleptic Gregorian date plus nanoseconds since
midnight.  This models the naive `datetime`/`Timestamp` values the offset
code manipulates. -/
structure DT where
  year : Int
  month : Int
  day : Int
  nsod : Int
  deriving DecidableEq, Repr

/-- Nanoseconds per day. -/
def nsPerDay : Int := 86400000000000

/-- A well-formed instant: month, day and time-of-day in range. -/
def ValidDT (d : DT) : Prop :=
  1 ≤ d.month ∧ d.month ≤ 12 ∧ 1 ≤ d.day ∧ d.day ≤ daysInMonth d.year d.month ∧
    0 ≤ d.nsod ∧ d.nsod < nsPerDay

instance (d : DT) : Decidable (ValidDT d) := by
  unfold ValidDT; infer_instance

/-- Proleptic-Gregorian ordinal of an instant's date
(`datetime.toordinal`: 0001-01-01 has ordinal 1). -/
def toOrd (d : DT) : Int :=
  daysBeforeYear d.year + daysBeforeMonth d.year d.month + d.day

/-- Next calendar day, keeping the time of day. -/
def succD (d : DT) : DT :=
  if d.day < daysInMonth d.year d.month then ⟨d.year, d.month, d.day + 1, d.nsod⟩
  else if d.month < 12 then ⟨d.year, d.month + 1, 1, d.nsod⟩
  else ⟨d.year + 1, 1, 1, d.nsod⟩

/-- Previous calendar day, keeping the time of day. -/
def predD (d : DT) : DT :=
  if 1 < d.day then ⟨d.year, d.month, d.day - 1, d.nsod⟩
  else if 1 < d.month then ⟨d.year, d.month - 1, daysInMonth d.year (d.month - 1), d.nsod⟩
  else ⟨d.year - 1, 12, 31, d.nsod⟩

/-- Shift an instant by `k` whole days (`datetime + timedelta(days=k)`). -/
def addDays (d : DT) (k : Int) : DT :=
  if 0 ≤ k then succD^[k.toNat] d else predD^[(-k).toNat] d

set_option maxHeartbeats 800000 in
theorem daysInMonth_pos (y m : Int) : 28 ≤ daysInMonth y m := by
  unfold daysInMonth
  split_ifs <;> omega

theorem isLeapB_iff (y : Int) :
    isLeapB y = true ↔ (y % 4 = 0 ∧ (y % 100 ≠ 0 ∨ y % 400 = 0)) := by
  unfold isLeapB
  simp [Bool.and_eq_true, Bool.or_eq_true]

theorem daysBeforeYear_succ (y : Int) :
    daysBeforeYear (y + 1) = daysBeforeYear y + 365 + (if isLeapB y then 1 else 0) := by
  unfold daysBeforeYear
  by_cases hl : isLeapB y = true
  · rw [if_pos hl]
    rw [isLeapB_iff] at hl
    obtain ⟨h4, h100⟩ := hl
    rcases h100 with h100 | h400 <;> omega
  · rw [if_neg hl]
    rw [isLeapB_iff] at hl
    push_neg at hl
    by_cases h4 : y % 4 = 0
    · obtain ⟨h100, h400⟩ := hl h4
      omega
    · omega

theorem daysBeforeMonth_step (y m : Int) (h1 : 1 ≤ m) (h2 : m ≤ 11) :
    daysBeforeMonth y (m + 1) = daysBeforeMonth y m + daysInMonth y m := by
  unfold daysBeforeMonth daysInMonth
  interval_cases m <;> cases h : isLeapB y <;> simp [h] <;> omega

theorem succD_toOrd (d : DT) (h : ValidDT d) : toOrd (succD d) = toOrd d + 1 := by
  obtain ⟨h1, h2, h3, h4, _, _⟩ := h
  unfold succD
  by_cases hd : d.day < daysInMonth d.year d.month
  · rw [if_pos hd]; unfold toOrd; dsimp only; omega
  · rw [if_neg hd]
    by_cases hm : d.month < 12
    · rw [if_pos hm]
      have hstep := daysBeforeMonth_step d.year d.month h1 (by omega)
      unfold toOrd; dsimp only; omega
    · rw [if_neg hm]
      have hm12 : d.month = 12 := by omega
      have hby := daysBeforeYear_succ d.year
      have hdim : daysInMonth d.year 12 = 31 := by unfold daysInMonth; norm_num
      have hdb12 : daysBeforeMonth d.year 12 =
          334 + (if isLeapB d.year then 1 else 0) := by
        unfold daysBeforeMonth; norm_num
      have hdb1 : daysBeforeMonth (d.year + 1) 1 = 0 := by
        unfold daysBeforeMonth; norm_num
      have hday : d.day = 31 := by
        rw [hm12] at hd h4
        rw [hdim] at hd h4
        omega
      unfold toOrd; dsimp only
      rw [hm12, hday, hdb1, hdb12, hby]
      omega

theorem succD_valid (d : DT) (h : ValidDT d) : ValidDT (succD d) := by
  obtain ⟨h1, h2, h3, h4, h5, h6⟩ := h
  unfold succD
  have hd1 := daysInMonth_pos d.year (d.month + 1)
  have hd2 := daysInMonth_pos (d.year + 1) 1
  by_cases hd : d.day < daysInMonth d.year d.month
  · rw [if_pos hd]; unfold ValidDT; dsimp only; omega
  · rw [if_neg hd]
    by_cases hm : d.month < 12
    · rw [if_pos hm]; unfold ValidDT; dsimp only; omega
    · rw [if_neg hm]; unfold ValidDT; dsimp only; omega

theorem succD_nsod (d : DT) : (succD d).nsod = d.nsod := by
  unfold succD; split_ifs <;> rfl

theorem predD_toOrd (d : DT) (h : ValidDT d) : toOrd (predD d) = toOrd d - 1 := by
  obtain ⟨h1, h2, h3, h4, _, _⟩ := h
  unfold predD
  by_cases hd : 1 < d.day
  · rw [if_pos hd]; unfold toOrd; dsimp only; omega
  · rw [if_neg hd]
    by_cases hm : 1 < d.month
    · rw [if_pos hm]
      have hstep := daysBeforeMonth_step d.year (d.month - 1) (by omega) (by omega)
      rw [show d.month - 1 + 1 = d.month by omega] at hstep
      unfold toOrd; dsimp only; omega
    · rw [if_neg hm]
      have hm1 : d.month = 1 := by omega
      have hday : d.day = 1 := by omega
      have hby := daysBeforeYear_succ (d.year - 1)
      rw [show d.year - 1 + 1 = d.year by omega] at hby
      have hdb12 : daysBeforeMonth (d.year - 1) 12 =
          334 + (if isLeapB (d.year - 1) then 1 else 0) := by
        unfold daysBeforeMonth; norm_num
      have hdb1 : daysBeforeMonth d.year 1 = 0 := by
        unfold daysBeforeMonth; norm_num
      unfold toOrd; dsimp only
      rw [hm1, hday, hdb1, hdb12, hby]
      omega

theorem predD_valid (d : DT) (h : ValidDT d) : ValidDT (predD d) := by
  obtain ⟨h1, h2, h3, h4, h5, h6⟩ := h
  unfold predD
  have hd1 := daysInMonth_pos d.year (d.month - 1)
  have hd2 : daysInMonth (d.year - 1) 12 = 31 := by unfold daysInMonth; norm_num
  by_cases hd : 1 < d.day
  · rw [if_pos hd]; unfold ValidDT; dsimp only; omega
  · rw [if_neg hd]
    by_cases hm : 1 < d.month
    · rw [if_pos hm]; unfold ValidDT; dsimp only; omega
    · rw [if_neg hm]; unfold ValidDT; dsimp only; omega

theorem predD_nsod (d : DT) : (predD d).nsod = d.nsod := by
  unfold predD; split_ifs <;> rfl

theorem succD_iter (k : Nat) (d : DT) (h : ValidDT d) :
    ValidDT (succD^[k] d) ∧ toOrd (succD^[k] d) = toOrd d + k := by
  induction k generalizing d with
  | zero => simp only [Function.iterate_zero_apply]; exact ⟨h, by push_cast; ring⟩
  | succ k ih =>
    rw [Function.iterate_succ_apply]
    obtain ⟨hv, ho⟩ := ih (succD d) (succD_valid d h)
    exact ⟨hv, by rw [ho, succD_toOrd d h]; push_cast; ring⟩

theorem predD_iter (k : Nat) (d : DT) (h : ValidDT d) :
    ValidDT (predD^[k] d) ∧ toOrd (predD^[k] d) = toOrd d - k := by
  induction k generalizing d with
  | zero => simp only [Function.iterate_zero_apply]; exact ⟨h, by push_cast; ring⟩
  | succ k ih =>
    rw [Function.iterate_succ_apply]
    obtain ⟨hv, ho⟩ := ih (predD d) (predD_valid d h)
    exact ⟨hv, by rw [ho, predD_toOrd d h]; push_cast; ring⟩

theorem succD_iter_nsod (k : Nat) (d : DT) : (succD^[k] d).nsod = d.nsod := by
  induction k generalizing d with
  | zero => simp
  | succ k ih => rw [Function.iterate_succ_apply, ih, succD_nsod]

theorem predD_iter_nsod (k : Nat) (d : DT) : (predD^[k] d).nsod = d.nsod := by
  induction k generalizing d with
  | zero => simp
  | succ k ih => rw [Function.iterate_succ_apply, ih, predD_nsod]

theorem addDays_toOrd (d : DT) (k : Int) (h : ValidDT d) :
    toOrd (addDays d k) = toOrd d + k := by
  unfold addDays
  by_cases hk : 0 ≤ k
  · simp only [hk, if_true]
    have := (succD_iter k.toNat d h).2
    rw [this]; omega
  · simp only [hk, if_false]
    have := (predD_iter (-k).toNat d h).2
    rw [this]; omega

theorem addDays_valid (d : DT) (k : Int) (h : ValidDT d) : ValidDT (addDays d k) := by
  unfold addDays
  by_cases hk : 0 ≤ k
  · simp only [hk, if_true]; exact (succD_iter k.toNat d h).1
  · simp only [hk, if_false]; exact (predD_iter (-k).toNat d h).1

theorem addDays_nsod (d : DT) (k : Int) : (addDays d k).nsod = d.nsod := by
  unfold addDays
  by_cases hk : 0 ≤ k
  · simp only [hk, if_true]; exact succD_iter_nsod k.toNat d
  · simp only [hk, if_false]; exact predD_iter_nsod (-k).toNat d

/-! ### Weekdays and the BusinessDay stepping loop

`datetime.weekday()` is 0 for Monday … 6 for Sunday, and ordinal 1
(0001-01-01) is a Monday, so the weekday of an ordinal `o` is `(o + 6) % 7`.
-/

/-- Python `weekday()` of a day ordinal (Monday = 0 … Sunday = 6). -/
def wd (o : Int) : Int := (o + 6) % 7

theorem wd_bounds (o : Int) : 0 ≤ wd o ∧ wd o < 7 := by unfold wd; omega

theorem wd_add (o k : Int) : wd (o + k) = (wd o + k) % 7 := by unfold wd; omega

/-- Termination measure helper for the stepping loop: steps remaining until
the next decrement in the travel direction. -/
def bdPen (n o : Int) : Nat :=
  if 0 < n then (if wd o = 4 then 2 else if wd o = 5 then 1 else 0)
  else (if wd o = 0 then 2 else if wd o = 6 then 1 else 0)

theorem bdPen_le (n o : Int) : bdPen n o ≤ 2 := by
  unfold bdPen; split_ifs <;> omega

/-- The `while n != 0` stepping loop of `BusinessDay.apply`: move one day at
a time in the sign direction of `n` (`k = n // abs(n)`), decrementing the
remaining count only when the day reached is a weekday. -/
def bdLoop (n o : Int) : Int :=
  if n = 0 then o
  else if 0 < n then
    (if wd (o + 1) < 5 then bdLoop (n - 1) (o + 1) else bdLoop n (o + 1))
  else
    (if wd (o - 1) < 5 then bdLoop (n + 1) (o - 1) else bdLoop n (o - 1))
termination_by 3 * n.natAbs + bdPen n o
decreasing_by
· have h1 := bdPen_le (n - 1) (o + 1)
  omega
· have h1 := wd_add o 1
  have h2 := wd_bounds o
  have h3 := wd_bounds (o + 1)
  simp only [bdPen]
  split_ifs <;> omega
· have h1 := bdPen_le (n + 1) (o - 1)
  omega
· have h1 : wd (o - 1) = (wd o + 6) % 7 := by unfold wd; omega
  have h2 := wd_bounds o
  have h3 := wd_bounds (o - 1)
  simp only [bdPen]
  split_ifs <;> omega

theorem bdLoop_zero (o : Int) : bdLoop 0 o = o := by
  rw [bdLoop]; simp

theorem bdLoop_pos (n o : Int) (h : 0 < n) :
    bdLoop n o = if wd (o + 1) < 5 then bdLoop (n - 1) (o + 1) else bdLoop n (o + 1) := by
  rw [bdLoop]; simp [h, show n ≠ 0 by omega]

theorem bdLoop_neg (n o : Int) (h : n < 0) :
    bdLoop n o = if wd (o - 1) < 5 then bdLoop (n + 1) (o - 1) else bdLoop n (o - 1) := by
  rw [bdLoop]; simp [show ¬0 < n by omega, show n ≠ 0 by omega]

/-- Next business day strictly after `o` (closed form of one decrement of
the stepping loop travelling forward). -/
def nb (o : Int) : Int :=
  if wd o = 4 then o + 3 else if wd o = 5 then o + 2 else o + 1

/-- Previous business day strictly before `o` (one decrement travelling
backward). -/
def pb (o : Int) : Int :=
  if wd o = 0 then o - 3 else if wd o = 6 then o - 2 else o - 1

theorem nb_of_ne (o : Int) (h4 : wd o ≠ 4) (h5 : wd o ≠ 5) : nb o = o + 1 := by
  unfold nb; simp [h4, h5]

theorem nb_of4 (o : Int) (h : wd o = 4) : nb o = o + 3 := by unfold nb; simp [h]

theorem nb_of5 (o : Int) (h : wd o = 5) : nb o = o + 2 := by unfold nb; simp [h]

theorem pb_of_mid (o : Int) (h0 : wd o ≠ 0) (h6 : wd o ≠ 6) : pb o = o - 1 := by
  unfold pb; simp [h0, h6]

theorem pb_of0 (o : Int) (h : wd o = 0) : pb o = o - 3 := by unfold pb; simp [h]

theorem pb_of6 (o : Int) (h : wd o = 6) : pb o = o - 2 := by unfold pb; simp [h]

theorem nb_wd (o : Int) : wd (nb o) < 5 := by
  have hb := wd_bounds o
  have e1 := wd_add o 1
  have e2 := wd_add o 2
  have e3 := wd_add o 3
  unfold nb
  split_ifs <;> omega

theorem pb_wd (o : Int) : wd (pb o) < 5 := by
  have hb := wd_bounds o
  have e1 : wd (o - 1) = (wd o + 6) % 7 := by unfold wd; omega
  have e2 : wd (o - 2) = (wd o + 5) % 7 := by unfold wd; omega
  have e3 : wd (o - 3) = (wd o + 4) % 7 := by unfold wd; omega
  unfold pb
  split_ifs <;> omega

theorem nb_gt (o : Int) : o < nb o := by
  unfold nb; split_ifs <;> omega

theorem pb_lt (o : Int) : pb o < o := by
  unfold pb; split_ifs <;> omega

theorem nb_add7k (o t : Int) : nb (o + 7 * t) = nb o + 7 * t := by
  have h : wd (o + 7 * t) = wd o := by unfold wd; omega
  unfold nb
  rw [h]
  split_ifs <;> ring

theorem pb_add7k (o t : Int) : pb (o + 7 * t) = pb o + 7 * t := by
  have h : wd (o + 7 * t) = wd o := by unfold wd; omega
  unfold pb
  rw [h]
  split_ifs <;> ring

theorem nb_iter_add7k (m : Nat) (o t : Int) : nb^[m] (o + 7 * t) = nb^[m] o + 7 * t := by
  induction m generalizing o with
  | zero => simp
  | succ m ih =>
    rw [Function.iterate_succ_apply, Function.iterate_succ_apply, nb_add7k, ih]

theorem pb_iter_add7k (m : Nat) (o t : Int) : pb^[m] (o + 7 * t) = pb^[m] o + 7 * t := by
  induction m generalizing o with
  | zero => simp
  | succ m ih =>
    rw [Function.iterate_succ_apply, Function.iterate_succ_apply, pb_add7k, ih]

theorem nb_pb (o : Int) (h : wd o < 5) : nb (pb o) = o := by
  have hb := wd_bounds o
  have e1 : wd (o - 1) = (wd o + 6) % 7 := by unfold wd; omega
  have e2 : wd (o - 2) = (wd o + 5) % 7 := by unfold wd; omega
  have e3 : wd (o - 3) = (wd o + 4) % 7 := by unfold wd; omega
  unfold pb
  split_ifs with h0 h6
  · rw [nb_of4 _ (by omega)]; ring
  · rw [nb_of5 _ (by omega)]; ring
  · rw [nb_of_ne _ (by omega) (by omega)]; ring

theorem bdLoop_nb (n o : Int) (h : 0 < n) : bdLoop n o = bdLoop (n - 1) (nb o) := by
  have hb := wd_bounds o
  have e1 := wd_add o 1
  have e2 := wd_add (o + 1) 1
  have e3 := wd_add (o + 1 + 1) 1
  by_cases h4 : wd o = 4
  · rw [bdLoop_pos n o h, if_neg (by omega), bdLoop_pos n (o + 1) h, if_neg (by omega),
      bdLoop_pos n (o + 1 + 1) h, if_pos (by omega), nb_of4 o h4,
      show o + 1 + 1 + 1 = o + 3 by ring]
  · by_cases h5 : wd o = 5
    · rw [bdLoop_pos n o h, if_neg (by omega), bdLoop_pos n (o + 1) h, if_pos (by omega),
        nb_of5 o h5, show o + 1 + 1 = o + 2 by ring]
    · rw [bdLoop_pos n o h, if_pos (by omega), nb_of_ne o h4 h5]

theorem bdLoop_pb (n o : Int) (h : n < 0) : bdLoop n o = bdLoop (n + 1) (pb o) := by
  have hb := wd_bounds o
  have e1 : wd (o - 1) = (wd o + 6) % 7 := by unfold wd; omega
  have e2 : wd (o - 1 - 1) = (wd (o - 1) + 6) % 7 := by unfold wd; omega
  have e3 : wd (o - 1 - 1 - 1) = (wd (o - 1 - 1) + 6) % 7 := by unfold wd; omega
  by_cases h0 : wd o = 0
  · rw [bdLoop_neg n o h, if_neg (by omega), bdLoop_neg n (o - 1) h, if_neg (by omega),
      bdLoop_neg n (o - 1 - 1) h, if_pos (by omega), pb_of0 o h0,
      show o - 1 - 1 - 1 = o - 3 by ring]
  · by_cases h6 : wd o = 6
    · rw [bdLoop_neg n o h, if_neg (by omega), bdLoop_neg n (o - 1) h, if_pos (by omega),
        pb_of6 o h6, show o - 1 - 1 = o - 2 by ring]
    · rw [bdLoop_neg n o h, if_pos (by omega), pb_of_mid o h0 h6]

theorem bdLoop_pos_iter (m : Nat) (o : Int) : bdLoop (m : Int) o = nb^[m] o := by
  induction m generalizing o with
  | zero => exact bdLoop_zero o
  | succ m ih =>
    rw [show ((m + 1 : Nat) : Int) = (m : Int) + 1 by push_cast; ring]
    rw [bdLoop_nb _ o (by positivity)]
    rw [show (m : Int) + 1 - 1 = (m : Int) by ring]
    rw [ih (nb o), Function.iterate_succ_apply]

theorem bdLoop_neg_iter (m : Nat) (o : Int) : bdLoop (-(m : Int)) o = pb^[m] o := by
  induction m generalizing o with
  | zero => simpa using bdLoop_zero o
  | succ m ih =>
    rw [show (-((m + 1 : Nat) : Int)) = -(m : Int) - 1 by push_cast; ring]
    rw [bdLoop_pb _ o (by omega)]
    rw [show -(m : Int) - 1 + 1 = -(m : Int) by ring]
    rw [ih (pb o), Function.iterate_succ_apply]

theorem nb_small (s : Nat) (x : Int) (h : (s : Int) + wd x ≤ 4) : nb^[s] x = x + s := by
  induction s generalizing x with
  | zero => simp
  | succ s ih =>
    have hb := wd_bounds x
    have e1 := wd_add x 1
    rw [Function.iterate_succ_apply, nb_of_ne x (by push_cast at h; omega) (by push_cast at h; omega)]
    rw [ih (x + 1) (by push_cast at h ⊢; omega)]
    push_cast; ring

theorem pb_small (s : Nat) (x : Int) (h : (s : Int) ≤ wd x) (h2 : wd x ≤ 4) :
    pb^[s] x = x - s := by
  induction s generalizing x with
  | zero => simp
  | succ s ih =>
    have hb := wd_bounds x
    have e1 : wd (x - 1) = (wd x + 6) % 7 := by unfold wd; omega
    rw [Function.iterate_succ_apply, pb_of_mid x (by push_cast at h; omega) (by omega)]
    rw [ih (x - 1) (by push_cast at h ⊢; omega) (by omega)]
    push_cast; ring

theorem nb5 (o : Int) (h : wd o < 5) : nb^[5] o = o + 7 := by
  have hb := wd_bounds o
  set c : Nat := (wd o).toNat with hc
  have hco : (c : Int) = wd o := by omega
  have h5 : 5 = c + (1 + (4 - c)) := by omega
  rw [h5, Function.iterate_add_apply, Function.iterate_add_apply]
  have hstep1 : nb^[4 - c] o = o + (4 - c : Nat) := by
    apply nb_small
    push_cast; omega
  rw [hstep1]
  have hw4 : wd (o + ((4 : Nat) - c : Nat)) = 4 := by
    rw [wd_add]; push_cast; omega
  rw [Function.iterate_one, nb_of4 _ hw4]
  have hwmon : wd (o + ((4 : Nat) - c : Nat) + 3) = 0 := by
    rw [wd_add]
    omega
  rw [nb_small c _ (by rw [hwmon]; omega)]
  omega

theorem pb5 (o : Int) (h : wd o < 5) : pb^[5] o = o - 7 := by
  have hb := wd_bounds o
  set c : Nat := (wd o).toNat with hc
  have hco : (c : Int) = wd o := by omega
  have h5 : 5 = (4 - c) + (1 + c) := by omega
  rw [h5, Function.iterate_add_apply, Function.iterate_add_apply]
  have hstep1 : pb^[c] o = o - c := by
    apply pb_small <;> omega
  rw [hstep1]
  have hw0 : wd (o - (c : Int)) = 0 := by
    have h2 := wd_add (o - (c : Int)) c
    rw [show o - (c : Int) + (c : Int) = o by ring] at h2
    have hb2 := wd_bounds (o - (c : Int))
    omega
  rw [Function.iterate_one, pb_of0 _ hw0]
  have hwfri : wd (o - (c : Int) - 3) = 4 := by
    have h2 := wd_add (o - (c : Int) - 3) 3
    rw [show o - (c : Int) - 3 + 3 = o - (c : Int) by ring] at h2
    have hb3 := wd_bounds (o - (c : Int) - 3)
    omega
  rw [pb_small (4 - c) _ (by rw [hwfri]; omega) (by omega)]
  omega

theorem nb_iter_mul5 (j m : Nat) (o : Int) (h : wd o < 5) :
    nb^[5 * j + m] o = nb^[m] o + 7 * j := by
  induction j generalizing o with
  | zero => simp
  | succ j ih =>
    have h7 : wd (o + 7) = wd o := by unfold wd; omega
    rw [show 5 * (j + 1) + m = (5 * j + m) + 5 by ring, Function.iterate_add_apply,
      nb5 o h, ih (o + 7) (by omega)]
    have := nb_iter_add7k m o 1
    rw [show o + 7 * 1 = o + 7 by ring] at this
    rw [this]
    push_cast; ring

theorem pb_iter_mul5 (j m : Nat) (o : Int) (h : wd o < 5) :
    pb^[5 * j + m] o = pb^[m] o - 7 * j := by
  induction j generalizing o with
  | zero => simp
  | succ j ih =>
    have h7 : wd (o - 7) = wd o := by unfold wd; omega
    rw [show 5 * (j + 1) + m = (5 * j + m) + 5 by ring, Function.iterate_add_apply,
      pb5 o h, ih (o - 7) (by omega)]
    have := pb_iter_add7k m o (-1)
    rw [show o + 7 * (-1) = o - 7 by ring] at this
    rw [this]
    push_cast; ring

theorem np_cancel (m : Nat) (x : Int) (h : wd x < 5) : nb^[m] (pb^[m] x) = x := by
  induction m generalizing x with
  | zero => simp
  | succ m ih =>
    rw [Function.iterate_succ_apply', Function.iterate_succ_apply]
    rw [ih (pb x) (pb_wd x), nb_pb x h]

theorem pb_iter_wd (k : Nat) (o : Int) (h : 1 ≤ k) : wd (pb^[k] o) < 5 := by
  obtain ⟨k', rfl⟩ : ∃ k', k = k' + 1 := ⟨k - 1, by omega⟩
  rw [Function.iterate_succ_apply']
  exact pb_wd _

theorem pb_iter_dec (j m : Nat) (o : Int) (h : wd o < 5) (hm : m ≤ 4) (hj : 1 ≤ j) :
    pb^[5 * j - m] o = nb^[m] o - 7 * j := by
  have hpos : 1 ≤ 5 * j - m := by omega
  have hsplit : 5 * j = m + (5 * j - m) := by omega
  have h1 : pb^[5 * j] o = pb^[m] (pb^[5 * j - m] o) := by
    conv_lhs => rw [hsplit]
    rw [Function.iterate_add_apply]
  have h2 : pb^[5 * j] o = o - 7 * j := by
    have := pb_iter_mul5 j 0 o h
    simpa using this
  have hx : wd (pb^[5 * j - m] o) < 5 := pb_iter_wd _ o hpos
  have h3 : nb^[m] (pb^[m] (pb^[5 * j - m] o)) = pb^[5 * j - m] o := np_cancel m _ hx
  rw [← h1, h2] at h3
  rw [← h3]
  have := nb_iter_add7k m o (-j)
  rw [show o + 7 * (-(j : Int)) = o - 7 * j by ring] at this
  rw [this]
  ring

theorem iter_shift (f : Int → Int) (t : Nat) (x : Int) (ht : 1 ≤ t) :
    f^[t] x = f^[t - 1] (f x) := by
  obtain ⟨s, rfl⟩ : ∃ s, t = s + 1 := ⟨t - 1, by omega⟩
  simp [Function.iterate_succ_apply]

theorem bdLoop_toNat_pos (n o : Int) (h : 0 ≤ n) : bdLoop n o = nb^[n.toNat] o := by
  have h2 := bdLoop_pos_iter n.toNat o
  rw [show ((n.toNat : Nat) : Int) = n by omega] at h2
  exact h2

theorem bdLoop_toNat_neg (n o : Int) (h : n ≤ 0) : bdLoop n o = pb^[(-n).toNat] o := by
  have h2 := bdLoop_neg_iter (-n).toNat o
  rw [show -(((-n).toNat : Nat) : Int) = n by omega] at h2
  exact h2

/-- The week-jump fast phase of `BusinessDay.apply` for `abs(n) > 5`:
jump `n // 5` whole weeks, adjust `n` for weekend landings exactly as the
source does, then run the unit stepping loop on the residual. -/
def bdayFast (n o : Int) : Int :=
  let k := n / 5
  let r0 := o + 7 * k
  let n1 := if n < 0 ∧ 5 ≤ wd r0 then n + 1 else n
  let n2 := n1 - 5 * k
  let n3 := if n2 = 0 ∧ 5 ≤ wd r0 then n2 - 1 else n2
  bdLoop n3 r0

/-- Day-ordinal core of plain `BusinessDay.apply` (datetime branch, with the
default `offset=timedelta(0)` parameter): weekend zero-adjustment, the
two-phase week jump for `abs(n) > 5`, then the stepping loop. -/
def bdayShift (N o : Int) : Int :=
  let n0 := if N = 0 ∧ 5 ≤ wd o then 1 else N
  if 5 < n0.natAbs then bdayFast n0 o else bdLoop n0 o

/-- Modelled from the spec: the naive single-day-stepping reference
computation for `BusinessDay.apply` (zero-adjustment, then step one calendar
day at a time, decrementing only on weekdays). -/
def bdayShiftNaive (N o : Int) : Int :=
  bdLoop (if N = 0 ∧ 5 ≤ wd o then 1 else N) o

theorem bdayFast_eq (n o : Int) (hbig : 5 < n.natAbs) : bdayFast n o = bdLoop n o := by
  simp only [bdayFast]
  set k := n / 5 with hk
  have wdr : wd (o + 7 * k) = wd o := by unfold wd; omega
  have hbo := wd_bounds o
  by_cases hpos : 0 < n
  · -- n ≥ 6
    have hn6 : 6 ≤ n := by omega
    have hk1 : 1 ≤ k := by omega
    have hm : 0 ≤ n - 5 * k ∧ n - 5 * k < 5 := by omega
    rw [if_neg (show ¬(n < 0 ∧ 5 ≤ wd (o + 7 * k)) from by omega)]
    by_cases hw : wd o < 5
    · rw [if_neg (show ¬(n - 5 * k = 0 ∧ 5 ≤ wd (o + 7 * k)) from by omega)]
      rw [bdLoop_toNat_pos _ _ (by omega), bdLoop_toNat_pos _ _ (by omega)]
      have hsplit : n.toNat = 5 * k.toNat + (n - 5 * k).toNat := by omega
      rw [hsplit, nb_iter_mul5 _ _ o hw]
      rw [nb_iter_add7k _ o k]
      congr 1
      omega
    · by_cases hm0 : n - 5 * k = 0
      · rw [if_pos (show (n - 5 * k = 0 ∧ 5 ≤ wd (o + 7 * k)) from ⟨hm0, by omega⟩)]
        rw [show n - 5 * k - 1 = -1 by omega]
        rw [bdLoop_toNat_neg _ _ (by omega), bdLoop_toNat_pos _ _ (by omega)]
        rw [show ((- -1 : Int)).toNat = 1 from rfl]
        rw [Function.iterate_one, pb_add7k]
        rw [iter_shift nb n.toNat o (by omega)]
        have hk2 : 2 ≤ k := by omega
        have hsplit : n.toNat - 1 = 5 * (k.toNat - 1) + 4 := by omega
        rw [hsplit]
        by_cases h5 : wd o = 5
        · have hM : nb o = o + 2 := nb_of5 o h5
          have hMw : wd (o + 2) = 0 := by rw [wd_add]; omega
          rw [hM, nb_iter_mul5 _ _ _ (by omega), nb_small 4 _ (by rw [hMw]; omega)]
          rw [pb_of_mid o (by omega) (by omega)]
          push_cast
          omega
        · have h6 : wd o = 6 := by omega
          have hM : nb o = o + 1 := nb_of_ne o (by omega) (by omega)
          have hMw : wd (o + 1) = 0 := by rw [wd_add]; omega
          rw [hM, nb_iter_mul5 _ _ _ (by omega), nb_small 4 _ (by rw [hMw]; omega)]
          rw [pb_of6 o h6]
          push_cast
          omega
      · rw [if_neg (show ¬(n - 5 * k = 0 ∧ 5 ≤ wd (o + 7 * k)) from by omega)]
        rw [bdLoop_toNat_pos _ _ (by omega), bdLoop_toNat_pos _ _ (by omega)]
        rw [iter_shift nb (n - 5 * k).toNat _ (by omega), iter_shift nb n.toNat o (by omega)]
        rw [nb_add7k o k, nb_iter_add7k _ (nb o) k]
        have hsplit : n.toNat - 1 = 5 * k.toNat + ((n - 5 * k).toNat - 1) := by omega
        rw [hsplit, nb_iter_mul5 _ _ (nb o) (nb_wd o)]
        congr 1
        omega
  · -- n ≤ -6
    have hn6 : n ≤ -6 := by omega
    have hk2 : k ≤ -2 := by omega
    have hm : 0 ≤ n - 5 * k ∧ n - 5 * k < 5 := by omega
    by_cases hw : wd o < 5
    · rw [if_neg (show ¬(n < 0 ∧ 5 ≤ wd (o + 7 * k)) from by omega)]
      rw [if_neg (show ¬(n - 5 * k = 0 ∧ 5 ≤ wd (o + 7 * k)) from by omega)]
      rw [bdLoop_toNat_pos _ _ (by omega), bdLoop_toNat_neg _ _ (by omega)]
      rw [nb_iter_add7k _ o k]
      have hsplit : (-n).toNat = 5 * (-k).toNat - (n - 5 * k).toNat := by omega
      rw [hsplit, pb_iter_dec _ _ o hw (by omega) (by omega)]
      omega
    · rw [if_pos (show (n < 0 ∧ 5 ≤ wd (o + 7 * k)) from ⟨by omega, by omega⟩)]
      rw [if_neg (show ¬(n + 1 - 5 * k = 0 ∧ 5 ≤ wd (o + 7 * k)) from by omega)]
      rw [bdLoop_toNat_pos _ _ (by omega), bdLoop_toNat_neg _ _ (by omega)]
      rw [nb_iter_add7k _ o k]
      rw [iter_shift nb (n + 1 - 5 * k).toNat o (by omega)]
      rw [iter_shift pb (-n).toNat o (by omega)]
      have hsplit : (-n).toNat - 1 = 5 * ((-k).toNat - 1) + (4 - ((n + 1 - 5 * k).toNat - 1)) := by
        omega
      rw [hsplit]
      by_cases h5 : wd o = 5
      · have hM : nb o = o + 2 := nb_of5 o h5
        have hMw : wd (o + 2) = 0 := by rw [wd_add]; omega
        have hF : pb o = o - 1 := pb_of_mid o (by omega) (by omega)
        have hFw : wd (o - 1) = 4 := by
          have h2 := wd_add (o - 1) 1
          rw [show o - 1 + 1 = o by ring] at h2
          have := wd_bounds (o - 1)
          omega
        rw [hM, hF, pb_iter_mul5 _ _ _ (by omega)]
        rw [nb_small _ _ (by rw [hMw]; omega), pb_small _ _ (by rw [hFw]; omega) (by omega)]
        push_cast
        omega
      · have h6 : wd o = 6 := by omega
        have hM : nb o = o + 1 := nb_of_ne o (by omega) (by omega)
        have hMw : wd (o + 1) = 0 := by rw [wd_add]; omega
        have hF : pb o = o - 2 := pb_of6 o h6
        have hFw : wd (o - 2) = 4 := by
          have h2 := wd_add (o - 2) 2
          rw [show o - 2 + 2 = o by ring] at h2
          have := wd_bounds (o - 2)
          omega
        rw [hM, hF, pb_iter_mul5 _ _ _ (by omega)]
        rw [nb_small _ _ (by rw [hMw]; omega), pb_small _ _ (by rw [hFw]; omega) (by omega)]
        push_cast
        omega

/-- Plain `BusinessDay.apply` on an instant (datetime branch of the source,
with the default `offset=timedelta(0)`): the date moves by the ordinal shift
computed by `bdayShift`, the time of day is untouched. -/
def bdayApplyDT (n : Int) (d : DT) : DT :=
  addDays d (bdayShift n (toOrd d) - toOrd d)

theorem bdayShift_eq_naive (N o : Int) : bdayShift N o = bdayShiftNaive N o := by
  simp only [bdayShift, bdayShiftNaive]
  by_cases h : 5 < (if N = 0 ∧ 5 ≤ wd o then 1 else N).natAbs
  · rw [if_pos h, bdayFast_eq _ o h]
  · rw [if_neg h]

/-- C3: for every integer `n` and every instant, the two-phase
week-jump-plus-residual optimization in plain `BusinessDay.apply` (with the
`n = 0` weekend adjustment) yields the same result as the naive reference
computation that steps one calendar day at a time in the sign direction of
`n`, decrementing the remaining count only on weekdays. -/
theorem businessDay_fast_path_eq_naive (n o : Int) (d : DT) :
    bdayShift n o = bdayShiftNaive n o ∧
      bdayApplyDT n d = addDays d (bdayShiftNaive n (toOrd d) - toOrd d) := by
  refine ⟨bdayShift_eq_naive n o, ?_⟩
  unfold bdayApplyDT
  rw [bdayShift_eq_naive]

/-! ### Month anchors -/

/-- Day policy of `shift_month`: `keep` = Python `None` (clamp the original
day), `first` = `'start'`, `last` = `'end'`. -/
inductive MonthDay
  | keep
  | first
  | last
  deriving DecidableEq, Repr

/-- Modelled from the spec: `shift_month(stamp, months, day_opt)` from
`pandas._libs.tslibs.offsets` (not part of the translated source file) —
shift by whole months, then pick the day per the day policy, clamping to the
new month's length. -/
def shift_month (d : DT) (months : Int) (opt : MonthDay) : DT :=
  let t := d.month + months
  let y := if t % 12 = 0 then d.year + t / 12 - 1 else d.year + t / 12
  let m := if t % 12 = 0 then 12 else t % 12
  match opt with
  | .keep => ⟨y, m, min d.day (daysInMonth y m), d.nsod⟩
  | .first => ⟨y, m, 1, d.nsod⟩
  | .last => ⟨y, m, daysInMonth y m, d.nsod⟩

/-- Core of `MonthEnd.apply`. -/
def monthEndApplyCore (n : Int) (d : DT) : DT :=
  if d.day ≠ daysInMonth d.year d.month then
    shift_month (shift_month d (-1) .last) (if n ≤ 0 then n + 1 else n) .last
  else shift_month d n .last

/-- Core of `MonthBegin.apply`. -/
def monthBeginApplyCore (n : Int) (d : DT) : DT :=
  shift_month d (if 1 < d.day ∧ n ≤ 0 then n + 1 else n) .first

theorem shift_month_last_day (d : DT) (k : Int) :
    (shift_month d k .last).day =
      daysInMonth (shift_month d k .last).year (shift_month d k .last).month := rfl

theorem shift_month_first_day (d : DT) (k : Int) :
    (shift_month d k .first).day = 1 := rfl

theorem shift_month_nsod (d : DT) (k : Int) (opt : MonthDay) :
    (shift_month d k opt).nsod = d.nsod := by
  unfold shift_month
  cases opt <;> rfl

theorem monthEndApplyCore_day (n : Int) (d : DT) :
    (monthEndApplyCore n d).day =
      daysInMonth (monthEndApplyCore n d).year (monthEndApplyCore n d).month := by
  unfold monthEndApplyCore
  split_ifs <;> rw [shift_month_last_day]

theorem monthBeginApplyCore_day (n : Int) (d : DT) : (monthBeginApplyCore n d).day = 1 := by
  unfold monthBeginApplyCore
  rw [shift_month_first_day]

theorem monthEndApplyCore_nsod (n : Int) (d : DT) : (monthEndApplyCore n d).nsod = d.nsod := by
  unfold monthEndApplyCore
  split_ifs <;> simp [shift_month_nsod]

theorem monthBeginApplyCore_nsod (n : Int) (d : DT) :
    (monthBeginApplyCore n d).nsod = d.nsod := by
  unfold monthBeginApplyCore
  simp [shift_month_nsod]

theorem shift_month_last_plus1 (y m day ns : Int) (h1 : 1 ≤ m) (h2 : m ≤ 12) :
    shift_month ⟨y, m, day, ns⟩ 1 .last =
      if m = 12 then (⟨y + 1, 1, 31, ns⟩ : DT)
      else ⟨y, m + 1, daysInMonth y (m + 1), ns⟩ := by
  unfold shift_month
  interval_cases m <;> norm_num <;> rfl

theorem shift_month_last_minus1 (y m day ns : Int) (h1 : 1 ≤ m) (h2 : m ≤ 12) :
    shift_month ⟨y, m, day, ns⟩ (-1) .last =
      if m = 1 then (⟨y - 1, 12, 31, ns⟩ : DT)
      else ⟨y, m - 1, daysInMonth y (m - 1), ns⟩ := by
  unfold shift_month
  interval_cases m <;> norm_num <;> rfl

theorem shift_month_last_zero (y m day ns : Int) (h1 : 1 ≤ m) (h2 : m ≤ 12) :
    shift_month ⟨y, m, day, ns⟩ 0 .last = ⟨y, m, daysInMonth y m, ns⟩ := by
  unfold shift_month
  interval_cases m <;> norm_num

/-- C6: `MonthEnd.apply` with `n = 1` maps an instant not on the last day of
its month to the last day of that same month, and an instant on the last day
of a month to the last day of the following month (day clamped to the new
month's length); in particular 2020-01-15 ↦ 2020-01-31 and
2020-01-31 ↦ 2020-02-29. -/
theorem monthEnd_apply_one (y m day ns : Int) (h1 : 1 ≤ m) (h2 : m ≤ 12) :
    (monthEndApplyCore 1 ⟨y, m, day, ns⟩ =
      if day = daysInMonth y m then
        (if m = 12 then (⟨y + 1, 1, 31, ns⟩ : DT)
         else ⟨y, m + 1, daysInMonth y (m + 1), ns⟩)
      else ⟨y, m, daysInMonth y m, ns⟩) ∧
    monthEndApplyCore 1 ⟨2020, 1, 15, 0⟩ = ⟨2020, 1, 31, 0⟩ ∧
    monthEndApplyCore 1 ⟨2020, 1, 31, 0⟩ = ⟨2020, 2, 29, 0⟩ := by
  refine ⟨?_, by decide, by decide⟩
  by_cases hd : day = daysInMonth y m
  · rw [if_pos hd]
    unfold monthEndApplyCore
    dsimp only
    rw [if_neg (show ¬(day ≠ daysInMonth y m) from fun hne => hne hd)]
    exact shift_month_last_plus1 y m day ns h1 h2
  · rw [if_neg hd]
    unfold monthEndApplyCore
    dsimp only
    rw [if_pos hd]
    rw [if_neg (show ¬((1 : Int) ≤ 0) from by norm_num)]
    rw [shift_month_last_minus1 y m day ns h1 h2]
    by_cases hm1 : m = 1
    · rw [if_pos hm1]
      rw [shift_month_last_plus1 (y - 1) 12 31 ns (by norm_num) (by norm_num)]
      rw [if_pos rfl, hm1]
      have hdim : daysInMonth y 1 = 31 := by unfold daysInMonth; norm_num
      rw [hdim, show y - 1 + 1 = y by ring]
    · rw [if_neg hm1]
      rw [shift_month_last_plus1 y (m - 1) (daysInMonth y (m - 1)) ns (by omega) (by omega)]
      rw [if_neg (by omega), show m - 1 + 1 = m by ring]

/-! ### Week, LastWeekOfMonth and the FY5253 fiscal family -/

/-- Total order key of an instant (`datetime` comparison order: date first,
then time of day). -/
def dtKey (d : DT) : Int := toOrd d * nsPerDay + d.nsod

/-- `Week.apply` for an anchored week (`weekday` given): move onto the next
occurrence of the weekday (decrementing `n` when travelling forward), then
step whole weeks. -/
def weekApplyCore (n wk : Int) (d : DT) : DT :=
  let od := wd (toOrd d)
  if 0 < n then
    addDays (if od ≠ wk then addDays d ((wk - od) % 7) else d)
      (7 * (if od ≠ wk then n - 1 else n))
  else
    addDays (if od ≠ wk then addDays d ((wk - od) % 7) else d) (7 * n)

/-- `Week.rollback` for an anchored week: `dt - Week(1, weekday=wk)` when
`dt` is not on the weekday. -/
def weekRollback (wk : Int) (d : DT) : DT :=
  if wd (toOrd d) = wk then d else weekApplyCore (-1) wk d

/-- `MonthEnd().rollforward`. -/
def monthEndRollforward (d : DT) : DT :=
  if d.day = daysInMonth d.year d.month then d else monthEndApplyCore 1 d

/-- `LastWeekOfMonth.getOffsetOfMonth`: roll the first of the month forward
to the month end, then roll back to the target weekday. -/
def lwomOffsetOfMonth (wk : Int) (d : DT) : DT :=
  weekRollback wk (monthEndRollforward ⟨d.year, d.month, 1, d.nsod⟩)

/-- `LastWeekOfMonth.apply`. -/
def lwomApply (n wk : Int) (d : DT) : DT :=
  let om := lwomOffsetOfMonth wk d
  let months :=
    if dtKey d < dtKey om then (if 0 < n then n - 1 else n)
    else if dtKey om = dtKey d then n
    else (if 0 < n then n else n + 1)
  lwomOffsetOfMonth wk (shift_month d months .first)

/-- The fiscal-year-end rule tag (`variation` parameter). -/
inductive FYVar
  | nearest
  | last
  deriving DecidableEq, Repr

/-- Parameters of an `FY5253` offset apart from the multiplier `n`. -/
structure FYCfg where
  weekday : Int
  startingMonth : Int
  variation : FYVar
  deriving DecidableEq, Repr

/-- `FY5253.get_target_month_end`: the last day of `startingMonth` in the
input's calendar year, at midnight. -/
def fyTargetMonthEnd (sm : Int) (d : DT) : DT :=
  predD (shift_month ⟨d.year, sm, 1, 0⟩ 1 .keep)

/-- `FY5253._get_year_end_nearest`.  The `dateutil.relativedelta` weekday
candidates are modelled from the spec: `forward` is the next occurrence of
the target weekday strictly after the month end, `backward` the previous one
strictly before it, and the candidate at the smaller absolute distance wins. -/
def fyYearEndNearest (sm wk : Int) (d : DT) : DT :=
  let t := fyTargetMonthEnd sm d
  let tw := wd (toOrd t)
  if tw = wk then t
  else if (wk - tw) % 7 < (tw - wk) % 7 then addDays t ((wk - tw) % 7)
  else addDays t (-((tw - wk) % 7))

/-- `FY5253._get_year_end_last`: the last occurrence of the target weekday
in `startingMonth`, via the owned `LastWeekOfMonth(n=1)` delegate. -/
def fyYearEndLast (sm wk : Int) (d : DT) : DT :=
  lwomApply 1 wk ⟨d.year, sm, 1, 0⟩

/-- `FY5253.get_year_end`. -/
def fyGetYearEnd (cfg : FYCfg) (d : DT) : DT :=
  match cfg.variation with
  | .nearest => fyYearEndNearest cfg.startingMonth cfg.weekday d
  | .last => fyYearEndLast cfg.startingMonth cfg.weekday d

/-- `FY5253.onOffset` (the `normalize` guard lives in the offset wrapper;
`FY5253Quarter`'s delegate is built with the default `normalize=False`). -/
def fyOnOffset (cfg : FYCfg) (d : DT) : Bool :=
  let dd : DT := ⟨d.year, d.month, d.day, 0⟩
  match cfg.variation with
  | .nearest =>
      fyGetYearEnd cfg dd == dd || fyGetYearEnd cfg (shift_month dd (-1) .keep) == dd
  | .last => fyGetYearEnd cfg dd == dd

/-- Date part of `FY5253.apply`: the prev/cur/next year-end ladder of the
source, with the `n` adjustment folded alongside the year selection (the
`assert False` branches of the source are unreachable and default to the
input's year with no adjustment). -/
def fyApplyDate (cfg : FYCfg) (n : Int) (d : DT) : DT :=
  let py := fyGetYearEnd cfg ⟨d.year - 1, cfg.startingMonth, 1, 0⟩
  let cy := fyGetYearEnd cfg ⟨d.year, cfg.startingMonth, 1, 0⟩
  let ny := fyGetYearEnd cfg ⟨d.year + 1, cfg.startingMonth, 1, 0⟩
  let eqAny := dtKey d = dtKey py ∨ dtKey d = dtKey cy ∨ dtKey d = dtKey ny
  if 0 < n then
    let year :=
      if dtKey d = dtKey py then d.year - 1
      else if dtKey d = dtKey cy then d.year
      else if dtKey d = dtKey ny then d.year + 1
      else if dtKey d < dtKey py then d.year - 1
      else if dtKey d < dtKey cy then d.year
      else if dtKey d < dtKey ny then d.year + 1
      else d.year
    let n2 :=
      if eqAny then n
      else if dtKey d < dtKey py ∨ dtKey d < dtKey cy ∨ dtKey d < dtKey ny then n - 1
      else n
    fyGetYearEnd cfg ⟨year + n2, cfg.startingMonth, 1, 0⟩
  else
    let year :=
      if dtKey d = dtKey py then d.year - 1
      else if dtKey d = dtKey cy then d.year
      else if dtKey d = dtKey ny then d.year + 1
      else if dtKey ny < dtKey d then d.year + 1
      else if dtKey cy < dtKey d then d.year
      else if dtKey py < dtKey d then d.year - 1
      else d.year
    let m2 :=
      if eqAny then -n
      else if dtKey ny < dtKey d ∨ dtKey cy < dtKey d ∨ dtKey py < dtKey d then -n - 1
      else -n
    fyGetYearEnd cfg ⟨year - m2, cfg.startingMonth, 1, 0⟩

/-- `FY5253.apply`: the computed year-end date carrying the input's time of
day (the source rebuilds the datetime from the input's clock fields and the
`apply_wraps` wrapper restores the nanosecond part). -/
def fyApply (cfg : FYCfg) (n : Int) (d : DT) : DT :=
  ⟨(fyApplyDate cfg n d).year, (fyApplyDate cfg n d).month, (fyApplyDate cfg n d).day, d.nsod⟩

/-- Previous bracketing year-end used by `FY5253Quarter.year_has_extra_week`:
`dt - self._offset` in both branches of the source. -/
def fyqPrevYE (cfg : FYCfg) (d : DT) : DT := fyApply cfg (-1) d

/-- Next bracketing year-end used by `FY5253Quarter.year_has_extra_week`:
`dt` itself when on offset, else `dt + self._offset`. -/
def fyqNextYE (cfg : FYCfg) (d : DT) : DT :=
  if fyOnOffset cfg d then d else fyApply cfg 1 d

/-- `FY5253Quarter.year_has_extra_week`: `(next - prev).days / 7 == 53`,
with Python's true division modelled exactly in `ℚ` (the float comparison is
exact at these magnitudes). -/
def fyqYearHasExtraWeek (cfg : FYCfg) (d : DT) : Bool :=
  decide ((((dtKey (fyqNextYE cfg d) - dtKey (fyqPrevYE cfg d)) / nsPerDay : Int) : ℚ) / 7 = 53)

/-- C5: `FY5253Quarter.year_has_extra_week` returns true exactly when the
two bracketing year-ends it computes are 371 days (53 weeks) apart, never
otherwise; and the "nearest" year-end for `startingMonth=12`,
`weekday=4` (Friday) in calendar year 2005 is 2005-12-30. -/
theorem fy5253_extra_week_iff_371 (cfg : FYCfg) (d : DT) :
    (fyqYearHasExtraWeek cfg d = true ↔
      toOrd (fyqNextYE cfg d) - toOrd (fyqPrevYE cfg d) = 371) ∧
    fyYearEndNearest 12 4 ⟨2005, 1, 1, 0⟩ = ⟨2005, 12, 30, 0⟩ := by
  constructor
  · unfold fyqYearHasExtraWeek
    have hp : (fyqPrevYE cfg d).nsod = d.nsod := rfl
    have hn : (fyqNextYE cfg d).nsod = d.nsod := by
      unfold fyqNextYE; split_ifs <;> rfl
    have hk : dtKey (fyqNextYE cfg d) - dtKey (fyqPrevYE cfg d) =
        (toOrd (fyqNextYE cfg d) - toOrd (fyqPrevYE cfg d)) * nsPerDay := by
      unfold dtKey; rw [hp, hn]; ring
    rw [hk]
    set a := toOrd (fyqNextYE cfg d) - toOrd (fyqPrevYE cfg d) with ha
    have hdiv : a * nsPerDay / nsPerDay = a := by
      apply Int.mul_ediv_cancel; unfold nsPerDay; norm_num
    rw [hdiv, decide_eq_true_iff]
    have h7 : ((a : ℚ) / 7 = 53) ↔ ((a : ℚ) = 371) := by
      rw [div_eq_iff (by norm_num : (7 : ℚ) ≠ 0)]; norm_num
    rw [h7]
    constructor
    · intro h; exact_mod_cast h
    · intro h; exact_mod_cast h
  · decide

/-! ### Fixed-duration (Tick) offsets -/

/-- The tick units (`Day` … `Nano`). -/
inductive TickUnit
  | day
  | hour
  | minute
  | second
  | milli
  | micro
  | nano
  deriving DecidableEq, Repr

/-- `_inc` of each tick class, in nanoseconds. -/
def unitNanos : TickUnit → Int
  | .day => 86400000000000
  | .hour => 3600000000000
  | .minute => 60000000000
  | .second => 1000000000
  | .milli => 1000000
  | .micro => 1000
  | .nano => 1

/-- A tick value: a unit class and the integer multiplier `n`. -/
structure Tick where
  unit : TickUnit
  n : Int
  deriving DecidableEq, Repr

/-- `Tick.delta` as a nanosecond count (`n * self._inc`). -/
def tickDelta (t : Tick) : Int := t.n * unitNanos t.unit

/-- `Timedelta.days` component (floor). -/
def tdDays (ns : Int) : Int := ns / nsPerDay

/-- `Timedelta.seconds` component, in `[0, 86400)`. -/
def tdSeconds (ns : Int) : Int := ns % nsPerDay / 1000000000

/-- `Timedelta.microseconds` component, in `[0, 1000000)`. -/
def tdMicroseconds (ns : Int) : Int := ns % 1000000000 / 1000

/-- `_delta_to_tick` on a nanosecond count: greedy reconstruction of a tick
from a combined duration, exactly as the source's component tests. -/
def deltaToTick (ns : Int) : Tick :=
  if tdMicroseconds ns = 0 then
    if tdSeconds ns = 0 then ⟨.day, tdDays ns⟩
    else if (tdDays ns * 86400 + tdSeconds ns) % 3600 = 0 then
      ⟨.hour, (tdDays ns * 86400 + tdSeconds ns) / 3600⟩
    else if (tdDays ns * 86400 + tdSeconds ns) % 60 = 0 then
      ⟨.minute, (tdDays ns * 86400 + tdSeconds ns) / 60⟩
    else ⟨.second, tdDays ns * 86400 + tdSeconds ns⟩
  else
    if ns % 1000000 = 0 then ⟨.milli, ns / 1000000⟩
    else if ns % 1000 = 0 then ⟨.micro, ns / 1000⟩
    else ⟨.nano, ns⟩

/-- `Tick.__add__` for two ticks: same class sums the multipliers, different
classes reconstruct a tick from the combined duration. -/
def tickAdd (a b : Tick) : Tick :=
  if a.unit = b.unit then ⟨a.unit, a.n + b.n⟩
  else deltaToTick (tickDelta a + tickDelta b)

/-- `Tick.__eq__` between two ticks: equality of realized durations. -/
def tickEq (a b : Tick) : Bool := tickDelta a == tickDelta b

theorem deltaToTick_delta (ns : Int) :
    tickDelta (deltaToTick ns) =
      ns - (if tdMicroseconds ns = 0 then ns % 1000 else 0) := by
  unfold deltaToTick tickDelta tdDays tdSeconds tdMicroseconds nsPerDay
  split_ifs <;> dsimp only [unitNanos] <;> omega

/-- C7 (amended): ticks equate by realized duration (`Hour(1) == Minute(60)`)
and `Hour(1) + Minute(30) == Minute(90)`; adding two ticks of the same unit
gives that unit with summed `n`; adding ticks of different units rebuilds the
tick greedily from the combined duration, and this is exact whenever the
combined duration's sub-microsecond (nanosecond) remainder is zero when its
microsecond component is zero — when the microsecond component is zero but
the nanosecond remainder is not, the nanosecond remainder is dropped. -/
theorem tick_algebra (u : TickUnit) (i j : Int) (a b : Tick) (ns : Int) :
    tickEq ⟨.hour, 1⟩ ⟨.minute, 60⟩ = true ∧
    tickAdd ⟨.hour, 1⟩ ⟨.minute, 30⟩ = ⟨.minute, 90⟩ ∧
    tickEq (tickAdd ⟨.hour, 1⟩ ⟨.minute, 30⟩) ⟨.minute, 90⟩ = true ∧
    tickAdd ⟨u, i⟩ ⟨u, j⟩ = ⟨u, i + j⟩ ∧
    (a.unit ≠ b.unit → tickAdd a b = deltaToTick (tickDelta a + tickDelta b)) ∧
    tickDelta (deltaToTick ns) =
      ns - (if tdMicroseconds ns = 0 then ns % 1000 else 0) := by
  refine ⟨by decide, by decide, by decide, by simp [tickAdd], ?_, deltaToTick_delta ns⟩
  intro hne
  unfold tickAdd
  rw [if_neg hne]

/-- C7 counterexample: the claimed lossless-ness fails — `Hour(1) + Nano(1)`
evaluates to `Hour(1)`, whose realized duration is not the sum of the two
operands' durations (the nanosecond is dropped). -/
theorem tick_add_drops_nanoseconds :
    tickAdd ⟨.hour, 1⟩ ⟨.nano, 1⟩ = ⟨.hour, 1⟩ ∧
    tickDelta (tickAdd ⟨.hour, 1⟩ ⟨.nano, 1⟩) ≠
      tickDelta ⟨.hour, 1⟩ + tickDelta ⟨.nano, 1⟩ := by
  constructor
  · decide
  · decide

/-! ### The sequence generator (`generate_range`) iteration loop

Instants are abstracted to their order key (an `Int`); the offset is any
function on instants plus the sign of its `n`, which governs the iteration
direction.  An error value models the fatal `ValueError`.
-/

/-- Ascending loop of `generate_range` (`offset.n >= 0`): yield while
`cur <= end`, apply the offset once per step, and fail fatally when the
result does not strictly advance. -/
def genAsc (f : Int → Int) (cur e : Int) : Except String (List Int) :=
  if cur ≤ e then
    if f cur ≤ cur then .error "Offset did not increment date"
    else
      match genAsc f (f cur) e with
      | .ok l => .ok (cur :: l)
      | .error s => .error s
  else .ok []
termination_by (e + 1 - cur).toNat
decreasing_by omega

/-- Descending loop of `generate_range` (`offset.n < 0`): yield while
`cur >= end`, apply the offset once per step, and fail fatally when the
result does not strictly retreat. -/
def genDesc (f : Int → Int) (cur e : Int) : Except String (List Int) :=
  if e ≤ cur then
    if cur ≤ f cur then .error "Offset did not decrement date"
    else
      match genDesc f (f cur) e with
      | .ok l => .ok (cur :: l)
      | .error s => .error s
  else .ok []
termination_by (cur + 1 - e).toNat
decreasing_by omega

/-- Iteration phase of `generate_range`: direction chosen by the sign of the
offset's `n`. -/
def generate_range (n : Int) (f : Int → Int) (s e : Int) : Except String (List Int) :=
  if 0 ≤ n then genAsc f s e else genDesc f s e

theorem genAsc_shape (f : Int → Int) (c e : Int) (l : List Int)
    (hok : genAsc f c e = .ok l) : l = [] ∨ l.head? = some c := by
  unfold genAsc at hok
  by_cases h1 : c ≤ e
  · rw [if_pos h1] at hok
    by_cases h2 : f c ≤ c
    · rw [if_pos h2] at hok
      cases hok
    · rw [if_neg h2] at hok
      revert hok
      cases h : genAsc f (f c) e with
      | ok l2 => intro hok; cases hok; right; rfl
      | error s => intro hok; cases hok
  · rw [if_neg h1] at hok
    cases hok
    left
    rfl

theorem genAsc_chain_fuel (fuel : Nat) (f : Int → Int) (c e : Int) (l : List Int)
    (hf : (e + 1 - c).toNat ≤ fuel) (hok : genAsc f c e = .ok l) :
    l.Chain' (· < ·) := by
  induction fuel generalizing c l with
  | zero =>
    unfold genAsc at hok
    rw [if_neg (show ¬c ≤ e from by omega)] at hok
    cases hok
    exact List.chain'_nil
  | succ fuel ih =>
    unfold genAsc at hok
    by_cases h1 : c ≤ e
    · rw [if_pos h1] at hok
      by_cases h2 : f c ≤ c
      · rw [if_pos h2] at hok
        cases hok
      · rw [if_neg h2] at hok
        revert hok
        cases h : genAsc f (f c) e with
        | ok l2 =>
          intro hok
          cases hok
          have hch := ih (f c) l2 (by omega) h
          rw [List.chain'_cons']
          refine ⟨?_, hch⟩
          intro b hb
          rcases genAsc_shape f (f c) e l2 h with hnil | hhead
          · subst hnil; cases hb
          · rw [hhead] at hb
            cases hb
            omega
        | error s => intro hok; cases hok
    · rw [if_neg h1] at hok
      cases hok
      exact List.chain'_nil

/-- C4: the `generate_range` iteration applies the offset once per step and
raises the fatal non-monotonic-offset error whenever the applied result does
not strictly advance (ascending, `n >= 0`) or strictly retreat (descending);
an offset whose apply returns its input unchanged always triggers the error
instead of looping forever, and any successfully produced ascending run is
strictly increasing. -/
theorem generate_range_monotonic_guard (n : Int) (f : Int → Int) (s e : Int) (l : List Int) :
    (0 ≤ n → s ≤ e → f s ≤ s →
      generate_range n f s e = .error "Offset did not increment date") ∧
    (n < 0 → e ≤ s → s ≤ f s →
      generate_range n f s e = .error "Offset did not decrement date") ∧
    (0 ≤ n → s ≤ e →
      generate_range n (fun x => x) s e = .error "Offset did not increment date") ∧
    (n < 0 → e ≤ s →
      generate_range n (fun x => x) s e = .error "Offset did not decrement date") ∧
    (0 ≤ n → generate_range n f s e = .ok l → l.Chain' (· < ·)) := by
  refine ⟨?_, ?_, ?_, ?_, ?_⟩
  · intro hn hse hf
    unfold generate_range
    rw [if_pos hn]
    unfold genAsc
    rw [if_pos hse, if_pos hf]
  · intro hn hse hf
    unfold generate_range
    rw [if_neg (show ¬(0 : Int) ≤ n from by omega)]
    unfold genDesc
    rw [if_pos hse, if_pos hf]
  · intro hn hse
    unfold generate_range
    rw [if_pos hn]
    unfold genAsc
    rw [if_pos hse, if_pos (le_refl s)]
  · intro hn hse
    unfold generate_range
    rw [if_neg (show ¬(0 : Int) ≤ n from by omega)]
    unfold genDesc
    rw [if_pos hse, if_pos (le_refl s)]
  · intro hn hok
    unfold generate_range at hok
    rw [if_pos hn] at hok
    exact genAsc_chain_fuel (e + 1 - s).toNat f s e l (le_refl _) hok

/-- Witness for C4 at concrete inputs: the identity offset triggers the
non-monotonic error in both directions. -/
theorem generate_range_monotonic_guard_witness :
    generate_range 1 (fun x => x) 0 3 = .error "Offset did not increment date" ∧
    generate_range (-1) (fun x => x) 3 0 = .error "Offset did not decrement date" :=
  ⟨(generate_range_monotonic_guard 1 (fun x => x) 0 3 []).2.2.1 (by norm_num) (by norm_num),
   (generate_range_monotonic_guard (-1) (fun x => x) 3 0 []).2.2.2.1 (by norm_num) (by norm_num)⟩

/-! ### The offset hierarchy: `onOffset`, `apply`, `rollback`, `rollforward`

The modelled family covers the base relative offset with an empty keyword
set, the Tick classes, plain `BusinessDay`, `MonthEnd` and `MonthBegin`;
`BusinessHour` is modelled separately below (its roll methods are its own).
-/

/-- Modelled from the spec: `_is_normalized(dt)` from
`pandas._libs.tslibs.offsets` — the instant's time of day is midnight. -/
def isNormalized (d : DT) : Bool := d.nsod == 0

/-- Shift an instant by a raw nanosecond count, carrying across midnight. -/
def addNs (d : DT) (k : Int) : DT :=
  ⟨(addDays d ((d.nsod + k) / nsPerDay)).year, (addDays d ((d.nsod + k) / nsPerDay)).month,
    (addDays d ((d.nsod + k) / nsPerDay)).day, (d.nsod + k) % nsPerDay⟩

/-- `Tick.apply` on an instant: add the realized duration directly.  `Tick`
defines `apply` without the `apply_wraps` decorator, so `normalize` is
ignored here. -/
def tickApplyDT (u : TickUnit) (n : Int) (d : DT) : DT := addNs d (n * unitNanos u)

/-- Post-processing of `apply_wraps`: normalize the result to midnight when
requested; otherwise restore the input's sub-microsecond (nanosecond)
remainder if the wrapped computation changed it. -/
def wrapNorm (nz : Bool) (dIn r : DT) : DT :=
  if nz then ⟨r.year, r.month, r.day, 0⟩
  else if dIn.nsod % 1000 ≠ 0 ∧ r.nsod % 1000 ≠ dIn.nsod % 1000 then
    addNs r (dIn.nsod % 1000)
  else r

/-- The modelled offset variants, each carrying its multiplier `n` and the
`normalize` flag. -/
inductive Offset
  | base (n : Int) (normalize : Bool)
  | tick (u : TickUnit) (n : Int) (normalize : Bool)
  | businessDay (n : Int) (normalize : Bool)
  | monthEnd (n : Int) (normalize : Bool)
  | monthBegin (n : Int) (normalize : Bool)
  deriving DecidableEq, Repr

/-- The `normalize` flag of an offset. -/
def Offset.nz : Offset → Bool
  | .base _ z => z
  | .tick _ _ z => z
  | .businessDay _ z => z
  | .monthEnd _ z => z
  | .monthBegin _ z => z

/-- `self.__class__(m, normalize=self.normalize, **self.kwds)`: the same
offset rebuilt with multiplier `m`. -/
def Offset.withN : Offset → Int → Offset
  | .base _ z, m => .base m z
  | .tick u _ z, m => .tick u m z
  | .businessDay _ z, m => .businessDay m z
  | .monthEnd _ z, m => .monthEnd m z
  | .monthBegin _ z, m => .monthBegin m z

/-- `onOffset` of each variant: the `normalize` guard, then the variant's
membership test (always-true for the base offset and ticks, weekday for
`BusinessDay`, last/first day for the month anchors). -/
def onOffsetU (o : Offset) (d : DT) : Bool :=
  match o with
  | .base _ z => if z && !(isNormalized d) then false else true
  | .tick _ _ z => if z && !(isNormalized d) then false else true
  | .businessDay _ z =>
      if z && !(isNormalized d) then false else decide (wd (toOrd d) < 5)
  | .monthEnd _ z =>
      if z && !(isNormalized d) then false else d.day == daysInMonth d.year d.month
  | .monthBegin _ z => if z && !(isNormalized d) then false else d.day == 1

/-- `apply` of each variant, wrapped by `apply_wraps` (except ticks, whose
`apply` is not wrapped in the source). -/
def applyU (o : Offset) (d : DT) : DT :=
  match o with
  | .base n z => wrapNorm z d (addDays d n)
  | .tick u n _ => tickApplyDT u n d
  | .businessDay n z => wrapNorm z d (bdayApplyDT n d)
  | .monthEnd n z => wrapNorm z d (monthEndApplyCore n d)
  | .monthBegin n z => wrapNorm z d (monthBeginApplyCore n d)

/-- `DateOffset.rollback`: `dt - self.__class__(1, …)` when not on offset. -/
def rollbackU (o : Offset) (d : DT) : DT :=
  if onOffsetU o d then d else applyU (o.withN (-1)) d

/-- `DateOffset.rollforward`: `dt + self.__class__(1, …)` when not on
offset. -/
def rollforwardU (o : Offset) (d : DT) : DT :=
  if onOffsetU o d then d else applyU (o.withN 1) d

/-! BusinessHour (rolling and membership; `apply` is out of this model's
scope since no claim depends on it). -/

/-- A `BusinessHour` offset: multiplier, normalize flag, and the clock
bounds `start`/`end` as nanoseconds of day.  The source raises on
`start == end` at first use (see the daytime-flag model below). -/
structure BH where
  n : Int
  normalize : Bool
  start : Int
  endT : Int
  deriving DecidableEq, Repr

/-- The `n` of the owned `next_bday` delegate (`1` for `n >= 0`, else
`-1`). -/
def bhNextBdayN (bh : BH) : Int := if 0 ≤ bh.n then 1 else -1

/-- `BusinessHourMixin._next_opening_time`. -/
def bhNextOpening (bh : BH) (d : DT) : DT :=
  let d2 :=
    if ¬(wd (toOrd d) < 5) then bdayApplyDT (bhNextBdayN bh) d
    else if 0 ≤ bh.n ∧ bh.start < d.nsod then bdayApplyDT (bhNextBdayN bh) d
    else if bh.n < 0 ∧ d.nsod < bh.start then bdayApplyDT (bhNextBdayN bh) d
    else d
  ⟨d2.year, d2.month, d2.day, bh.start⟩

/-- `BusinessHourMixin._prev_opening_time`. -/
def bhPrevOpening (bh : BH) (d : DT) : DT :=
  let d2 :=
    if ¬(wd (toOrd d) < 5) then bdayApplyDT (-(bhNextBdayN bh)) d
    else if 0 ≤ bh.n ∧ d.nsod < bh.start then bdayApplyDT (-(bhNextBdayN bh)) d
    else if bh.n < 0 ∧ bh.start < d.nsod then bdayApplyDT (-(bhNextBdayN bh)) d
    else d
  ⟨d2.year, d2.month, d2.day, bh.start⟩

/-- `_get_business_hours_by_sec` as a nanosecond count (daytime window when
`start < end`, overnight window otherwise; `start == end` raises in the
source before this value is used). -/
def bhSecondsNs (bh : BH) : Int :=
  if bh.start < bh.endT then bh.endT - bh.start else nsPerDay + bh.endT - bh.start

/-- `BusinessHourMixin._onOffset`: time spent from the previous (or, for
negative `n`, next) opening time is within the business-hours span. -/
def bhOnOffsetCore (bh : BH) (d : DT) : Bool :=
  decide (dtKey d - dtKey (if 0 ≤ bh.n then bhPrevOpening bh d else bhNextOpening bh d)
    ≤ bhSecondsNs bh)

/-- `BusinessHourMixin.onOffset`. -/
def bhOnOffset (bh : BH) (d : DT) : Bool :=
  if bh.normalize && !(isNormalized d) then false else bhOnOffsetCore bh d

/-- `BusinessHourMixin.rollback` (wrapped by `apply_wraps`). -/
def bhRollback (bh : BH) (d : DT) : DT :=
  wrapNorm bh.normalize d
    (if bhOnOffset bh d then d
     else if 0 ≤ bh.n then addNs (bhPrevOpening bh d) (bhSecondsNs bh)
     else addNs (bhNextOpening bh d) (bhSecondsNs bh))

/-- `BusinessHourMixin.rollforward` (wrapped by `apply_wraps`). -/
def bhRollforward (bh : BH) (d : DT) : DT :=
  wrapNorm bh.normalize d
    (if bhOnOffset bh d then d
     else if 0 ≤ bh.n then bhNextOpening bh d else bhPrevOpening bh d)

theorem wrapNorm_self (nz : Bool) (d : DT) (h : nz = true → d.nsod = 0) :
    wrapNorm nz d d = d := by
  unfold wrapNorm
  cases nz with
  | true =>
    simp only [if_true]
    obtain ⟨y, m, dd, ns⟩ := d
    have := h rfl
    simp_all
  | false =>
    simp only [Bool.false_eq_true, if_false]
    rw [if_neg]
    rintro ⟨-, hb⟩
    exact hb rfl

/-- C1: whenever `onOffset(d)` holds, both `rollback(d)` and
`rollforward(d)` return `d` unchanged — for every offset of the modelled
family and for `BusinessHour` (whose roll methods are its own). -/
theorem onOffset_roll_identity :
    (∀ (o : Offset) (d : DT), onOffsetU o d = true →
      rollbackU o d = d ∧ rollforwardU o d = d) ∧
    (∀ (bh : BH) (d : DT), bh.start ≠ bh.endT → bhOnOffset bh d = true →
      bhRollback bh d = d ∧ bhRollforward bh d = d) := by
  constructor
  · intro o d h
    unfold rollbackU rollforwardU
    rw [h]
    exact ⟨if_pos rfl, if_pos rfl⟩
  · intro bh d hse h
    have hn : bh.normalize = true → d.nsod = 0 := by
      intro hz
      unfold bhOnOffset at h
      rw [hz] at h
      by_contra hns
      have : isNormalized d = false := by
        unfold isNormalized
        simpa using hns
      rw [this] at h
      simp at h
    constructor
    · unfold bhRollback
      rw [h]
      simp only [if_true]
      exact wrapNorm_self bh.normalize d hn
    · unfold bhRollforward
      rw [h]
      simp only [if_true]
      exact wrapNorm_self bh.normalize d hn

/-- Witness for C1: a Monday is on-offset for `BusinessDay(2)` and rolling
is a no-op; Monday 10:00 is within a 09:00–17:00 business-hour window and
rolling forward is a no-op. -/
theorem onOffset_roll_identity_witness :
    rollbackU (.businessDay 2 false) ⟨2020, 1, 6, 0⟩ = ⟨2020, 1, 6, 0⟩ ∧
    bhRollforward ⟨1, false, 32400000000000, 61200000000000⟩ ⟨2020, 1, 6, 36000000000000⟩ =
      ⟨2020, 1, 6, 36000000000000⟩ :=
  ⟨(onOffset_roll_identity.1 (.businessDay 2 false) ⟨2020, 1, 6, 0⟩ (by decide)).1,
   (onOffset_roll_identity.2 ⟨1, false, 32400000000000, 61200000000000⟩
      ⟨2020, 1, 6, 36000000000000⟩ (by decide) (by decide)).2⟩

/-- C10: every modelled variant's `onOffset` (and `BusinessHour`'s) starts
with the `normalize` guard, so a normalized offset rejects every instant
whose time of day is not midnight. -/
theorem normalized_onOffset_rejects_nonmidnight :
    (∀ (o : Offset) (d : DT), o.nz = true → d.nsod ≠ 0 → onOffsetU o d = false) ∧
    (∀ (bh : BH) (d : DT), bh.normalize = true → d.nsod ≠ 0 → bhOnOffset bh d = false) := by
  have hg : ∀ (d : DT), d.nsod ≠ 0 → (true && !(isNormalized d)) = true := by
    intro d hd
    unfold isNormalized
    simpa using hd
  constructor
  · intro o d hz hd
    cases o <;> simp only [Offset.nz] at hz <;> subst hz <;>
      simp only [onOffsetU, hg d hd, if_true]
  · intro bh d hz hd
    unfold bhOnOffset
    rw [hz, hg d hd]
    simp

/-- Witness for C10: a normalized `MonthEnd` rejects a month-end instant
with a nonzero time of day, and likewise for a normalized business hour. -/
theorem normalized_onOffset_rejects_witness :
    onOffsetU (.monthEnd 1 true) ⟨2020, 1, 31, 5⟩ = false ∧
    bhOnOffset ⟨1, true, 32400000000000, 61200000000000⟩ ⟨2020, 1, 6, 5⟩ = false :=
  ⟨normalized_onOffset_rejects_nonmidnight.1 (.monthEnd 1 true) ⟨2020, 1, 31, 5⟩ rfl
      (by decide),
   normalized_onOffset_rejects_nonmidnight.2 ⟨1, true, 32400000000000, 61200000000000⟩
      ⟨2020, 1, 6, 5⟩ rfl (by decide)⟩

/-- C2 counterexample: a Tick built with `normalize=True` — here
`Hour(1, normalize=True)` — rolls a 00:30 instant forward to 01:30, which
its own `onOffset` rejects, because `Tick.apply` skips the normalization
wrapper. -/
theorem rollforward_normalized_tick_not_member :
    onOffsetU (.tick .hour 1 true)
      (rollforwardU (.tick .hour 1 true) ⟨2020, 1, 1, 1800000000000⟩) = false := by
  decide

theorem toOrd_fields (r : DT) (x : Int) : toOrd ⟨r.year, r.month, r.day, x⟩ = toOrd r := rfl

theorem wrapNorm_true (dIn r : DT) : wrapNorm true dIn r = ⟨r.year, r.month, r.day, 0⟩ := by
  unfold wrapNorm
  simp

theorem wrapNorm_preserved (nz : Bool) (dIn r : DT) (h : r.nsod = dIn.nsod) :
    wrapNorm nz dIn r = if nz then (⟨r.year, r.month, r.day, 0⟩ : DT) else r := by
  unfold wrapNorm
  cases nz with
  | true => simp
  | false =>
    simp only [Bool.false_eq_true, if_false]
    rw [if_neg]
    rintro ⟨-, hb⟩
    exact hb (by rw [h])

theorem bdayShift_one (o : Int) : bdayShift 1 o = nb o := by
  simp only [bdayShift]
  rw [show (if (1 : Int) = 0 ∧ 5 ≤ wd o then (1 : Int) else 1) = 1 by split_ifs <;> rfl]
  rw [if_neg (by norm_num)]
  rw [bdLoop_toNat_pos 1 o (by norm_num), show ((1 : Int)).toNat = 1 from rfl,
    Function.iterate_one]

theorem bdayShift_negone (o : Int) : bdayShift (-1) o = pb o := by
  simp only [bdayShift]
  rw [show (if (-1 : Int) = 0 ∧ 5 ≤ wd o then (1 : Int) else -1) = -1 by
    rw [if_neg]; rintro ⟨h1, -⟩; omega]
  rw [if_neg (by norm_num)]
  rw [bdLoop_toNat_neg (-1) o (by norm_num), show ((- -1 : Int)).toNat = 1 from rfl,
    Function.iterate_one]

theorem bdayApplyDT_one_wd (d : DT) (hv : ValidDT d) : wd (toOrd (bdayApplyDT 1 d)) < 5 := by
  unfold bdayApplyDT
  rw [addDays_toOrd _ _ hv, bdayShift_one,
    show toOrd d + (nb (toOrd d) - toOrd d) = nb (toOrd d) by ring]
  exact nb_wd _

theorem bdayApplyDT_negone_wd (d : DT) (hv : ValidDT d) :
    wd (toOrd (bdayApplyDT (-1) d)) < 5 := by
  unfold bdayApplyDT
  rw [addDays_toOrd _ _ hv, bdayShift_negone,
    show toOrd d + (pb (toOrd d) - toOrd d) = pb (toOrd d) by ring]
  exact pb_wd _

theorem bdayApplyDT_nsod (n : Int) (d : DT) : (bdayApplyDT n d).nsod = d.nsod := by
  unfold bdayApplyDT
  exact addDays_nsod _ _

/-- C2 (amended): for every offset of the modelled family except Ticks
constructed with `normalize=True` (whose `apply` skips the normalization
wrapper, see the counterexample), rolling any valid instant forward or
backward lands on a member of the offset's date set. -/
theorem roll_lands_on_member (o : Offset) (d : DT) (hv : ValidDT d)
    (hex : ∀ u m, o ≠ Offset.tick u m true) :
    onOffsetU o (rollforwardU o d) = true ∧ onOffsetU o (rollbackU o d) = true := by
  by_cases h : onOffsetU o d = true
  · unfold rollforwardU rollbackU
    rw [if_pos h, if_pos h]
    exact ⟨h, h⟩
  · unfold rollforwardU rollbackU
    rw [if_neg h, if_neg h]
    cases o with
    | tick u m z =>
      cases z with
      | false =>
        exfalso
        apply h
        unfold onOffsetU
        simp
      | true => exact absurd rfl (hex u m)
    | base n z =>
      have hz : z = true := by
        cases z with
        | true => rfl
        | false =>
          exfalso
          apply h
          unfold onOffsetU
          simp
      subst hz
      simp only [Offset.withN, applyU, wrapNorm_true]
      constructor <;> · unfold onOffsetU isNormalized; simp
    | businessDay n z =>
      simp only [Offset.withN, applyU]
      have h1 := bdayApplyDT_one_wd d hv
      have h2 := bdayApplyDT_negone_wd d hv
      cases z with
      | true =>
        rw [wrapNorm_true, wrapNorm_true]
        constructor <;>
          · unfold onOffsetU isNormalized
            simp only [beq_self_eq_true, Bool.not_true, Bool.and_false,
              Bool.false_eq_true, if_false]
            rw [toOrd_fields]
            simp [h1, h2]
      | false =>
        rw [wrapNorm_preserved false d _ (bdayApplyDT_nsod 1 d),
          wrapNorm_preserved false d _ (bdayApplyDT_nsod (-1) d)]
        simp only [Bool.false_eq_true, if_false]
        constructor <;>
          · unfold onOffsetU
            simp [h1, h2]
    | monthEnd n z =>
      simp only [Offset.withN, applyU]
      have h1 := monthEndApplyCore_day 1 d
      have h2 := monthEndApplyCore_day (-1) d
      cases z with
      | true =>
        rw [wrapNorm_true, wrapNorm_true]
        constructor <;>
          · unfold onOffsetU isNormalized
            simp_all
      | false =>
        rw [wrapNorm_preserved false d _ (monthEndApplyCore_nsod 1 d),
          wrapNorm_preserved false d _ (monthEndApplyCore_nsod (-1) d)]
        simp only [Bool.false_eq_true, if_false]
        constructor <;>
          · unfold onOffsetU
            cases hnz : (Offset.businessDay n false).nz <;> simp_all
    | monthBegin n z =>
      simp only [Offset.withN, applyU]
      have h1 := monthBeginApplyCore_day 1 d
      have h2 := monthBeginApplyCore_day (-1) d
      cases z with
      | true =>
        rw [wrapNorm_true, wrapNorm_true]
        constructor <;>
          · unfold onOffsetU isNormalized
            simp_all
      | false =>
        rw [wrapNorm_preserved false d _ (monthBeginApplyCore_nsod 1 d),
          wrapNorm_preserved false d _ (monthBeginApplyCore_nsod (-1) d)]
        simp only [Bool.false_eq_true, if_false]
        constructor <;>
          · unfold onOffsetU
            simp_all

/-- Witness for C2 at a concrete input: rolling 2020-01-15 forward under a
plain `MonthEnd` lands on a member. -/
theorem roll_lands_on_member_witness :
    onOffsetU (.monthEnd 1 false) (rollforwardU (.monthEnd 1 false) ⟨2020, 1, 15, 0⟩) = true :=
  (roll_lands_on_member (.monthEnd 1 false) ⟨2020, 1, 15, 0⟩ (by decide)
    (fun u m h => Offset.noConfusion h)).1

/-- Witness for C6 at concrete month bounds. -/
theorem monthEnd_apply_one_witness :
    monthEndApplyCore 1 ⟨2021, 6, 10, 0⟩ = ⟨2021, 6, 30, 0⟩ :=
  by
    have h := (monthEnd_apply_one 2021 6 10 0 (by norm_num) (by norm_num)).1
    rw [h]
    decide

/-- Witness for C7's cross-unit conjunct at a concrete pair of ticks. -/
theorem tick_algebra_witness :
    tickAdd ⟨.minute, 5⟩ ⟨.second, 30⟩ =
      deltaToTick (tickDelta ⟨.minute, 5⟩ + tickDelta ⟨.second, 30⟩) :=
  (tick_algebra .day 0 0 ⟨.minute, 5⟩ ⟨.second, 30⟩ 0).2.2.2.2.1 (by decide)

/-! ### Canonical identity, hashing and pickling (`_params`, `__eq__`,
`__hash__`, `__getstate__`/`__setstate__`)

Attribute dictionaries are modelled as association lists over an enumerated
field-name type; `keyRank` mirrors the alphabetical order of the Python
attribute names (`_offset` < `calendar` < `holidays` < `n` < `normalize`
< `offset` < `weekmask`), and `privOffset` stands for the
underscore-prefixed `_offset` attribute that `_params` skips. -/

/-- Field names appearing in offset instances. -/
inductive FieldName
  | calendar
  | holidays
  | n
  | normalize
  | weekmask
  | uoffset
  | privOffset
  deriving DecidableEq, Repr

/-- Alphabetical rank of the Python attribute name
(`_offset`, `calendar`, `holidays`, `n`, `normalize`, `offset`,
`weekmask`). -/
def keyRank : FieldName → Nat
  | .privOffset => 0
  | .calendar => 1
  | .holidays => 2
  | .n => 3
  | .normalize => 4
  | .uoffset => 5
  | .weekmask => 6

/-- `k[0] == '_'` on the Python attribute name. -/
def isPrivate : FieldName → Bool
  | .privOffset => true
  | _ => false

/-- Attribute values. -/
inductive PVal
  | vint (i : Int)
  | vbool (b : Bool)
  | vstr (s : String)
  | vlist (l : List Int)
  | vcal (weekmask : String) (holidays : List Int)
  deriving DecidableEq, Repr

/-- Python dict update: replace the value of an existing key, else append. -/
def dictUpsert (l : List (FieldName × PVal)) (kv : FieldName × PVal) :
    List (FieldName × PVal) :=
  if l.any (fun p => p.1 = kv.1) then
    l.map (fun p => if p.1 = kv.1 then (p.1, kv.2) else p)
  else l ++ [kv]

/-- `dict(list(a.items()) + list(b.items()))`: entries of `b` win. -/
def dictMerge (a b : List (FieldName × PVal)) : List (FieldName × PVal) :=
  b.foldl dictUpsert a

/-- Dictionary lookup. -/
def dictGet (l : List (FieldName × PVal)) (k : FieldName) : Option PVal :=
  (l.find? (fun p => p.1 = k)).map (fun p => p.2)

/-- Dictionary key removal. -/
def dictRemove (l : List (FieldName × PVal)) (k : FieldName) :
    List (FieldName × PVal) :=
  l.filter (fun p => !(p.1 = k : Bool))

/-- Sort attribute pairs by field name (`sorted(set(attrs))`; keys are
unique after the dict merge, so sorting by key matches Python's tuple
sort). -/
def sortByKey (l : List (FieldName × PVal)) : List (FieldName × PVal) :=
  l.insertionSort (fun a b => keyRank a.1 ≤ keyRank b.1)

/-- An offset instance as reflection sees it: class name, `vars(self)` and
the `kwds` dict (held apart from the attribute map; `_params` skips the
`kwds`/`name` bookkeeping keys, which therefore need no field names here). -/
structure OffsetInst where
  className : String
  attrs : List (FieldName × PVal)
  kwds : List (FieldName × PVal)
  deriving DecidableEq, Repr

/-- `holidays` is falsy (empty). -/
def falsyHolidays : PVal → Bool
  | .vlist [] => true
  | _ => false

/-- `DateOffset._params`: merge `vars(self)` with `kwds` (later wins), drop
an empty `holidays`, exclude `kwds`/`name`/`normalize`/`calendar` and
underscore-prefixed attributes, then sort. -/
def paramsOf (o : OffsetInst) : String × List (FieldName × PVal) :=
  let allp := dictMerge o.attrs o.kwds
  let allp :=
    if (dictGet allp .holidays).any falsyHolidays then dictRemove allp .holidays else allp
  (o.className,
   sortByKey (allp.filter (fun p =>
     !(p.1 = FieldName.normalize : Bool) && !(p.1 = FieldName.calendar : Bool) &&
       !(isPrivate p.1))))

/-- `DateOffset.__eq__` between two offset instances: equality of the
canonical parameter tuples. -/
def eqInst (a b : OffsetInst) : Bool := decide (paramsOf a = paramsOf b)

/-- A concrete hash of a string. -/
def hashStr (s : String) : Nat := s.foldl (fun a c => a * 31 + c.toNat) 7

/-- A concrete hash of an attribute value. -/
def hashPVal : PVal → Nat
  | .vint i => 11 + i.natAbs * 2 + (if i < 0 then 1 else 0)
  | .vbool b => if b then 5 else 3
  | .vstr s => 13 + hashStr s
  | .vlist l => l.foldl (fun a i => a * 37 + i.natAbs) 17
  | .vcal wm hol => 19 + hashStr wm * 3 + hol.foldl (fun a i => a * 37 + i.natAbs) 17

/-- `DateOffset.__hash__`: a hash computed from the canonical parameter
tuple `_params()`. -/
def hashInst (o : OffsetInst) : Nat :=
  hashStr (paramsOf o).1 +
    (paramsOf o).2.foldl (fun a p => a * 41 + keyRank p.1 + hashPVal p.2) 23

/-- Modelled from the spec: the holiday processing of `_get_calendar`
(dates normalized and sorted). -/
def processHolidays (l : List Int) : List Int := l.insertionSort (· ≤ ·)

/-- Modelled from the spec: the derived business-day calendar handle, a pure
function of the weekmask and the processed holiday list. -/
def mkCalendar (wm : String) (hol : List Int) : PVal := .vcal wm (processHolidays hol)

/-- `BusinessMixin.__getstate__`: the instance dictionary with the calendar
handle removed (from the attributes and from the `kwds` dict). -/
def getstate (o : OffsetInst) : OffsetInst :=
  ⟨o.className, dictRemove o.attrs .calendar, dictRemove o.kwds .calendar⟩

/-- `BusinessMixin.__setstate__`: restore the dictionary, then re-derive the
calendar handle from the persisted weekmask/holiday parameters when both are
present. -/
def setstate (o : OffsetInst) : OffsetInst :=
  match dictGet o.attrs .weekmask, dictGet o.attrs .holidays with
  | some (.vstr wm), some (.vlist hol) =>
      ⟨o.className,
       dictUpsert (dictUpsert o.attrs (.calendar, mkCalendar wm hol))
         (.holidays, .vlist (processHolidays hol)),
       dictUpsert (dictUpsert (dictUpsert o.kwds (.calendar, mkCalendar wm hol))
         (.holidays, .vlist (processHolidays hol))) (.weekmask, .vstr wm)⟩
  | _, _ => o

/-- A `CustomBusinessDay(n, normalize, weekmask, holidays)` instance: the
constructor stores the processed holidays and the derived calendar in both
the attribute map and `kwds` (holidays assumed nonempty, matching the
"drop empty holidays" rule being inactive). -/
def cbdayInst (n : Int) (nz : Bool) (wm : String) (hol : List Int) : OffsetInst :=
  ⟨"CustomBusinessDay",
   [(.n, .vint n), (.normalize, .vbool nz), (.weekmask, .vstr wm),
    (.holidays, .vlist hol), (.calendar, .vcal wm hol), (.privOffset, .vint 0)],
   [(.uoffset, .vint 0), (.weekmask, .vstr wm), (.holidays, .vlist hol),
    (.calendar, .vcal wm hol)]⟩

/-- A plain `BusinessDay(n, normalize)` instance. -/
def bdayInst (nz : Bool) : OffsetInst :=
  ⟨"BusinessDay",
   [(.n, .vint 1), (.normalize, .vbool nz), (.privOffset, .vint 0)],
   [(.uoffset, .vint 0)]⟩

/-- The claim's canonical tuple, following its words: the variant tag plus
the sorted merged (field, value) pairs excluding only the
calendar-derivation handle (and internal bookkeeping), with `normalize`
retained. -/
def specParamsOf (o : OffsetInst) : String × List (FieldName × PVal) :=
  (o.className,
   sortByKey ((dictMerge o.attrs o.kwds).filter (fun p =>
     !(p.1 = FieldName.calendar : Bool) && !(isPrivate p.1))))

set_option maxHeartbeats 1600000 in
theorem cbday_pickle_roundtrip (n : Int) (nz : Bool) (wm : String) (hol : List Int)
    (h : processHolidays hol = hol) :
    eqInst (setstate (getstate (cbdayInst n nz wm hol))) (cbdayInst n nz wm hol) = true := by
  rcases hol with _ | ⟨a, t⟩
  · have h2 : setstate (getstate (cbdayInst n nz wm [])) =
        ⟨"CustomBusinessDay",
         [(.n, .vint n), (.normalize, .vbool nz), (.weekmask, .vstr wm),
          (.holidays, .vlist []), (.privOffset, .vint 0), (.calendar, .vcal wm [])],
         [(.uoffset, .vint 0), (.weekmask, .vstr wm), (.holidays, .vlist []),
          (.calendar, .vcal wm [])]⟩ := rfl
    rw [h2]
    unfold eqInst
    rw [decide_eq_true_iff]
    have e1 : paramsOf
        (⟨"CustomBusinessDay",
          [(.n, .vint n), (.normalize, .vbool nz), (.weekmask, .vstr wm),
           (.holidays, .vlist []), (.privOffset, .vint 0), (.calendar, .vcal wm [])],
          [(.uoffset, .vint 0), (.weekmask, .vstr wm), (.holidays, .vlist []),
           (.calendar, .vcal wm [])]⟩ : OffsetInst) =
        ("CustomBusinessDay",
         sortByKey [(.n, .vint n), (.weekmask, .vstr wm), (.uoffset, .vint 0)]) := rfl
    have e2 : paramsOf (cbdayInst n nz wm []) =
        ("CustomBusinessDay",
         sortByKey [(.n, .vint n), (.weekmask, .vstr wm), (.uoffset, .vint 0)]) := rfl
    rw [e1, e2]
  · have h2 : setstate (getstate (cbdayInst n nz wm (a :: t))) =
        ⟨"CustomBusinessDay",
         [(.n, .vint n), (.normalize, .vbool nz), (.weekmask, .vstr wm),
          (.holidays, .vlist (processHolidays (a :: t))), (.privOffset, .vint 0),
          (.calendar, .vcal wm (processHolidays (a :: t)))],
         [(.uoffset, .vint 0), (.weekmask, .vstr wm),
          (.holidays, .vlist (processHolidays (a :: t))),
          (.calendar, .vcal wm (processHolidays (a :: t)))]⟩ := rfl
    rw [h2, h]
    unfold eqInst
    rw [decide_eq_true_iff]
    have e1 : paramsOf
        (⟨"CustomBusinessDay",
          [(.n, .vint n), (.normalize, .vbool nz), (.weekmask, .vstr wm),
           (.holidays, .vlist (a :: t)), (.privOffset, .vint 0),
           (.calendar, .vcal wm (a :: t))],
          [(.uoffset, .vint 0), (.weekmask, .vstr wm), (.holidays, .vlist (a :: t)),
           (.calendar, .vcal wm (a :: t))]⟩ : OffsetInst) =
        ("CustomBusinessDay",
         sortByKey [(.n, .vint n), (.weekmask, .vstr wm), (.holidays, .vlist (a :: t)),
           (.uoffset, .vint 0)]) := rfl
    have e2 : paramsOf (cbdayInst n nz wm (a :: t)) =
        ("CustomBusinessDay",
         sortByKey [(.n, .vint n), (.weekmask, .vstr wm), (.holidays, .vlist (a :: t)),
           (.uoffset, .vint 0)]) := rfl
    rw [e1, e2]

/-- C8 (amended): two offset instances are equal iff their `_params()`
canonical tuples — variant tag plus the sorted (field, value) pairs
excluding the calendar handle *and* the `normalize`/bookkeeping fields —
coincide; the hash is computed from that same canonical tuple, so equal
offsets hash equally; and the identity is stable across a pickling round
trip, which drops the calendar handle and re-derives it from the persisted
weekmask/holiday parameters. -/
theorem offset_canonical_identity (a b : OffsetInst) (n : Int) (nz : Bool)
    (wm : String) (hol : List Int) :
    (eqInst a b = true ↔ paramsOf a = paramsOf b) ∧
    (eqInst a b = true → hashInst a = hashInst b) ∧
    (processHolidays hol = hol →
      eqInst (setstate (getstate (cbdayInst n nz wm hol))) (cbdayInst n nz wm hol) = true) := by
  refine ⟨?_, ?_, cbday_pickle_roundtrip n nz wm hol⟩
  · unfold eqInst
    exact decide_eq_true_iff
  · intro h
    unfold eqInst at h
    have hp : paramsOf a = paramsOf b := decide_eq_true_iff.mp h
    unfold hashInst
    rw [hp]

/-- Witness for C8 at a concrete custom-business-day instance. -/
theorem offset_canonical_identity_witness :
    eqInst (setstate (getstate (cbdayInst 2 false "Mon Tue" [3, 7])))
      (cbdayInst 2 false "Mon Tue" [3, 7]) = true :=
  (offset_canonical_identity (bdayInst true) (bdayInst true) 2 false "Mon Tue" [3, 7]).2.2
    (by decide)

/-- C8 counterexample: the code's equality also ignores the `normalize`
flag — two `BusinessDay` instances differing only in `normalize` compare
equal, while the claim's canonical tuple (which excludes only the calendar
handle) distinguishes them. -/
theorem offset_eq_ignores_normalize :
    eqInst (bdayInst true) (bdayInst false) = true ∧
    specParamsOf (bdayInst true) ≠ specParamsOf (bdayInst false) := by
  constructor
  · decide
  · decide

/-! ### Construction-time validation -/

/-- Did construction succeed? -/
def isOkE (e : Except String BH) : Bool :=
  match e with
  | .ok _ => true
  | .error _ => false

/-- Did construction succeed (parameter-tuple results)? -/
def isOkP (e : Except String (List Int)) : Bool :=
  match e with
  | .ok _ => true
  | .error _ => false

/-- `WeekOfMonth.__init__`: rejects `n = 0`, a weekday outside `[0, 6]` and
a week outside `[0, 3]`, in that order. -/
def mkWeekOfMonth (n wkd wk : Int) : Except String (List Int) :=
  if n = 0 then .error "N cannot be 0"
  else if wkd < 0 ∨ 6 < wkd then .error "Day must be 0<=day<=6"
  else if wk < 0 ∨ 3 < wk then .error "Week must be 0<=week<=3"
  else .ok [n, wkd, wk]

/-- `LastWeekOfMonth.__init__`. -/
def mkLastWeekOfMonth (n wkd : Int) : Except String (List Int) :=
  if n = 0 then .error "N cannot be 0"
  else if wkd < 0 ∨ 6 < wkd then .error "Day must be 0<=day<=6"
  else .ok [n, wkd]

/-- `FY5253.__init__` (the `variation` string is the enum here, so only the
`n = 0` rejection remains). -/
def mkFY5253 (n wkd sm : Int) (v : FYVar) : Except String (List Int) :=
  if n = 0 then .error "N cannot be 0" else .ok [n, wkd, sm]

/-- `FY5253Quarter.__init__`. -/
def mkFY5253Quarter (n wkd sm qtr : Int) (v : FYVar) : Except String (List Int) :=
  if n = 0 then .error "N cannot be 0" else .ok [n, wkd, sm, qtr]

/-- `SemiMonthEnd.__init__` (`_min_day_of_month = 1`). -/
def mkSemiMonthEnd (n dom : Int) : Except String (List Int) :=
  if ¬(1 ≤ dom ∧ dom ≤ 27) then .error "day_of_month must be 1<=day_of_month<=27"
  else .ok [n, dom]

/-- `SemiMonthBegin.__init__` (inherits `_min_day_of_month = 2`). -/
def mkSemiMonthBegin (n dom : Int) : Except String (List Int) :=
  if ¬(2 ≤ dom ∧ dom ≤ 27) then .error "day_of_month must be 2<=day_of_month<=27"
  else .ok [n, dom]

/-- `BusinessHour.__init__`: `_validate_business_time` only checks that the
clock strings parse (modelled as a time-of-day range check); it performs no
`start == end` comparison, so such an offset is constructed successfully. -/
def mkBusinessHour (n : Int) (nz : Bool) (s e : Int) : Except String BH :=
  if ¬(0 ≤ s ∧ s < nsPerDay) then .error "time data must match"
  else if ¬(0 ≤ e ∧ e < nsPerDay) then .error "time data must match"
  else .ok ⟨n, nz, s, e⟩

/-- `BusinessHourMixin._get_daytime_flag`, the first-use check that raises
on `start == end` (reached from `apply`/`onOffset`/`rollback`). -/
def bhDaytimeFlag (bh : BH) : Except String Bool :=
  if bh.start = bh.endT then .error "start and end must not be the same"
  else .ok (bh.start < bh.endT)

/-- C9 (amended): out-of-domain parameters are rejected at construction for
`WeekOfMonth`/`LastWeekOfMonth` (weekday, week, `n = 0`), for the fiscal
offsets (`n = 0`) and for the semi-month offsets (`day_of_month` bounds);
but a business-hour offset with `start == end` is accepted at construction
and only rejected at first use, when the daytime flag is computed. -/
theorem construction_validation (n wkd wk sm qtr dom : Int) (v : FYVar) (nz : Bool)
    (s e : Int) :
    (isOkP (mkWeekOfMonth n wkd wk) = true ↔
      (n ≠ 0 ∧ 0 ≤ wkd ∧ wkd ≤ 6 ∧ 0 ≤ wk ∧ wk ≤ 3)) ∧
    (isOkP (mkLastWeekOfMonth n wkd) = true ↔ (n ≠ 0 ∧ 0 ≤ wkd ∧ wkd ≤ 6)) ∧
    (isOkP (mkFY5253 n wkd sm v) = true ↔ n ≠ 0) ∧
    (isOkP (mkFY5253Quarter n wkd sm qtr v) = true ↔ n ≠ 0) ∧
    (isOkP (mkSemiMonthEnd n dom) = true ↔ (1 ≤ dom ∧ dom ≤ 27)) ∧
    (isOkP (mkSemiMonthBegin n dom) = true ↔ (2 ≤ dom ∧ dom ≤ 27)) ∧
    (0 ≤ s → s < nsPerDay → 0 ≤ e → e < nsPerDay →
      isOkE (mkBusinessHour n nz s e) = true) ∧
    (∀ bh : BH, bh.start = bh.endT →
      bhDaytimeFlag bh = .error "start and end must not be the same") ∧
    (∀ bh : BH, bh.start ≠ bh.endT → bhDaytimeFlag bh = .ok (bh.start < bh.endT)) := by
  refine ⟨?_, ?_, ?_, ?_, ?_, ?_, ?_, ?_, ?_⟩
  · unfold mkWeekOfMonth isOkP
    split_ifs <;> simp_all <;> omega
  · unfold mkLastWeekOfMonth isOkP
    split_ifs <;> simp_all <;> omega
  · unfold mkFY5253 isOkP
    split_ifs <;> simp_all
  · unfold mkFY5253Quarter isOkP
    split_ifs <;> simp_all
  · unfold mkSemiMonthEnd isOkP
    split_ifs <;> simp_all
  · unfold mkSemiMonthBegin isOkP
    split_ifs <;> simp_all
  · intro h1 h2 h3 h4
    unfold mkBusinessHour isOkE
    rw [if_neg (by omega), if_neg (by omega)]
  · intro bh h
    unfold bhDaytimeFlag
    rw [if_pos h]
  · intro bh h
    unfold bhDaytimeFlag
    rw [if_neg h]

/-- Witness for C9: with valid clock bounds (here both 09:00), business-hour
construction succeeds even though `start == end`. -/
theorem construction_validation_witness :
    isOkE (mkBusinessHour 1 false 32400000000000 32400000000000) = true :=
  (construction_validation 1 0 0 1 1 15 .nearest false
      32400000000000 32400000000000).2.2.2.2.2.2.1
    (by norm_num) (by norm_num [nsPerDay]) (by norm_num) (by norm_num [nsPerDay])

/-- C9 counterexample: `BusinessHour(start='09:00', end='09:00')` is *not*
rejected at construction — it constructs successfully, and the
`start != end` check only fires later, in `_get_daytime_flag`, when the
offset is first used. -/
theorem businessHour_start_eq_end_constructs :
    isOkE (mkBusinessHour 1 false 32400000000000 32400000000000) = true ∧
    bhDaytimeFlag ⟨1, false, 32400000000000, 32400000000000⟩ =
      .error "start and end must not be the same" := by
  constructor
  · rfl
  · rfl
